import Mathlib

/-!
# Verification of the slide-deck analysis pipeline

A shallow embedding, over `List Char` strings, of the container parsing,
media extraction, typography rewriting, analysis orchestration and job
bookkeeping logic of the `ai-document-understanding` repository
(`src/analyze-pptx.ts`, `src/utils/gemini-pdf-analyzer.ts`,
`src/utils/gemini-image-analyzer.ts`, the LibreOffice converter with
`removeVideosFromPptx`, and the server-side `processJob`).

Entry data (ZIP part contents) is modelled as a list of characters; external
services (the rendering service, the understanding service, `JSON.parse`,
the filesystem) are modelled as oracle parameters, while all control flow,
string processing and aggregation logic around them is translated from the
source.
-/

namespace DocUnd

/-- Strings are modelled as lists of characters. -/
abbrev Str := List Char

/-- One named part of a ZIP container (an `AdmZip` entry): a path and raw data. -/
structure Entry where
  entryName : Str
  data : Str
  deriving Repr, DecidableEq

/-- A container is the list of its entries, in archive order. -/
abbrev Zip := List Entry

/-- JavaScript `String.prototype.toLowerCase` restricted to ASCII, as applied
to file extensions and entry names in the source. -/
def lowerStr (s : Str) : Str := s.map Char.toLower

/-- Digit run to a natural number (the effect of `parseInt` on a `\d+` match). -/
def natOfDigits (ds : Str) : Nat :=
  ds.foldl (fun acc c => 10 * acc + (c.toNat - 48)) 0

/-- Drop trailing slashes, as Node's `path.basename` does before splitting. -/
def dropTrailingSlashes (s : Str) : Str :=
  (s.reverse.dropWhile (· = '/')).reverse

/-- The portion of `s` after the last slash. -/
def afterLastSlash : Str → Str
  | [] => []
  | c :: cs => if ('/' : Char) ∈ (c :: cs) then afterLastSlash cs else c :: cs

/-- Node `path.basename` (posix): last path segment, ignoring trailing slashes. -/
def basename (s : Str) : Str :=
  afterLastSlash (dropTrailingSlashes s)

/-- The portion of `s` after the last dot. -/
def afterLastDot : Str → Str
  | [] => []
  | c :: cs => if ('.' : Char) ∈ (c :: cs) then afterLastDot cs else c :: cs

/-- Node `path.extname`: the suffix of the basename from its last dot, or empty
when the basename has no dot or only a leading dot. -/
def extname (s : Str) : Str :=
  let afterFirst := (basename s).drop 1
  if ('.' : Char) ∈ afterFirst then '.' :: afterLastDot afterFirst else []

/-- `str.includes(sub)` of JavaScript: substring containment. -/
def includesStr (s sub : Str) : Bool := decide (sub <:+: s)

/-- `str.startsWith(p)`. -/
def startsWithStr (s p : Str) : Bool := p.isPrefixOf s

/-- `str.endsWith(p)`. -/
def endsWithStr (s p : Str) : Bool := p.isSuffixOf s

/-! ## Relationship resolver: `buildMediaToSlideMap` (src/analyze-pptx.ts) -/

/-- Literal `ppt/slides/_rels/slide`. -/
def relsLit : Str := ("ppt/slides/_rels/slide").toList

/-- Does the regex `ppt\/slides\/_rels\/slide(\d+)\.xml\.rels$` match starting
at this suffix and reaching the end of the name? -/
def relsAt (s : Str) : Bool :=
  if relsLit.isPrefixOf s then
    let rest := s.drop relsLit.length
    let ds := rest.takeWhile Char.isDigit
    decide (ds ≠ []) && rest.drop ds.length == (".xml.rels").toList
  else false

/-- Test of the unanchored-start regex
`/ppt\/slides\/_rels\/slide(\d+)\.xml\.rels$/` against an entry name. -/
def matchesRelsName (s : Str) : Bool := s.tails.any relsAt

/-- The first `slide(\d+)` occurrence in a name, if any: what
`entryName.match(/slide(\d+)/)` captures for the slide number. -/
def firstSlideNum : Str → Option Nat
  | [] => none
  | c :: cs =>
    let lit : Str := ("slide").toList
    if lit.isPrefixOf (c :: cs) then
      let ds := ((c :: cs).drop lit.length).takeWhile Char.isDigit
      if ds = [] then firstSlideNum cs else some (natOfDigits ds)
    else firstSlideNum cs

/-- Slide number attributed to a rels entry name (`parseInt` of the first
`slide(\d+)` capture; `0` as a default for the impossible no-match case the
source asserts away with `!`). -/
def slideNumberOf (s : Str) : Nat := (firstSlideNum s).getD 0

/-- Literal `Target="../media/`. -/
def targetLit : Str := ("Target=\"../media/").toList

/-- All captures of `matchAll(/Target="\.\.\/(media\/[^"]+)"/g)` over a rels
part body, in order, with `fuel` bounding the scan length. -/
def targetCapturesF : Nat → Str → List Str
  | 0, _ => []
  | _ + 1, [] => []
  | fuel + 1, c :: cs =>
    if targetLit.isPrefixOf (c :: cs) then
      let rest := (c :: cs).drop targetLit.length
      let v := rest.takeWhile (· ≠ '"')
      if v = [] then targetCapturesF fuel cs
      else if rest.drop v.length == [] then targetCapturesF fuel cs
      else (("media/").toList ++ v) :: targetCapturesF fuel (rest.drop (v.length + 1))
    else targetCapturesF fuel cs

/-- All `Target="../media/..."` captures of a rels part body. -/
def targetCaptures (s : Str) : List Str := targetCapturesF s.length s

/-- The `(media name, slide number)` assignments one rels entry contributes, in
the order the source writes them into the map. -/
def relWrites (e : Entry) : List (Str × Nat) :=
  if matchesRelsName e.entryName then
    (targetCaptures e.data).map (fun g => (basename g, slideNumberOf e.entryName))
  else []

/-- All map assignments of `buildMediaToSlideMap`, in execution order. -/
def mediaWrites (z : Zip) : List (Str × Nat) := z.flatMap relWrites

/-- Insert-or-overwrite on a string-keyed association list, mirroring property
assignment on a JavaScript object. -/
def upsert : List (Str × Nat) → Str → Nat → List (Str × Nat)
  | [], k, v => [(k, v)]
  | (k0, v0) :: t, k, v =>
    if k0 = k then (k, v) :: t else (k0, v0) :: upsert t k v

/-- `buildMediaToSlideMap`: walks every `ppt/slides/_rels/slideN.xml.rels`
entry and records `basename(target) -> slideNumber` for each media target,
later writes overwriting earlier ones. -/
def buildMediaToSlideMap (z : Zip) : List (Str × Nat) :=
  (mediaWrites z).foldl (fun m kv => upsert m kv.1 kv.2) []

/-- Lookup in the association list (JavaScript property read). -/
def mapLookup (m : List (Str × Nat)) (k : Str) : Option Nat :=
  (m.find? (fun kv => kv.1 == k)).map (·.2)

/-! ## Media extractor: `extractMediaFromPPTX` (src/analyze-pptx.ts) -/

/-- A slide reference: a number from the media map, or the string
`"Unknown"` of the `number | string` union in `MediaFile.slideNumber`. -/
inductive SlideRef where
  | num (n : Nat)
  | unknown
  deriving Repr, DecidableEq

/-- `MediaFile` of the source: name, scratch path, extension (without dot) and
owning slide. -/
structure MediaFile where
  name : Str
  path : Str
  extension : Str
  slideNumber : SlideRef
  deriving Repr, DecidableEq

/-- `ExtractedMedia` of the source. -/
structure ExtractedMedia where
  images : List MediaFile
  videos : List MediaFile
  deriving Repr, DecidableEq

/-- The image extension allow-list of `extractMediaFromPPTX`. -/
def imageExtensions : List Str :=
  [(".png").toList, (".jpg").toList, (".jpeg").toList, (".gif").toList,
   (".bmp").toList, (".svg").toList]

/-- The video extension allow-list of `extractMediaFromPPTX`. -/
def videoExtensions : List Str :=
  [(".mp4").toList, (".avi").toList, (".mov").toList, (".wmv").toList,
   (".mkv").toList]

/-- Literal `ppt/media/`, the media-directory marker tested with
`String.prototype.includes`. -/
def mediaDirLit : Str := ("ppt/media/").toList

/-- `mediaToSlideMap[name] || "Unknown"`: a missing key or the (falsy) slide
number `0` both degrade to `"Unknown"`. -/
def slideRefFor (m : List (Str × Nat)) (name : Str) : SlideRef :=
  match mapLookup m name with
  | some n => if n = 0 then SlideRef.unknown else SlideRef.num n
  | none => SlideRef.unknown

/-- Node `path.join(tempDir, name)`, for the scratch paths the extractor
writes. -/
def joinPath (dir name : Str) : Str := dir ++ ('/' :: name)

/-- The body of the extraction loop over entries. `writeOk` models whether
`fs.writeFile` at a given scratch path succeeds; on the first failing write
the exception reaches the `catch` branch, which builds a dangling rejected
promise and falls through to `return media`, so the accumulated lists are
returned as they stand. -/
def extractLoop (m : List (Str × Nat)) (writeOk : Str → Bool) (tempDir : Str) :
    List Entry → ExtractedMedia → ExtractedMedia
  | [], acc => acc
  | e :: es, acc =>
    if includesStr e.entryName mediaDirLit then
      let ext := lowerStr (extname e.entryName)
      let name := basename e.entryName
      if ext ∈ imageExtensions then
        let outputPath := joinPath tempDir name
        if writeOk outputPath then
          extractLoop m writeOk tempDir es
            ⟨acc.images ++ [⟨name, outputPath, ext.drop 1, slideRefFor m name⟩],
             acc.videos⟩
        else acc
      else if ext ∈ videoExtensions then
        let outputPath := joinPath tempDir name
        if writeOk outputPath then
          extractLoop m writeOk tempDir es
            ⟨acc.images,
             acc.videos ++ [⟨name, outputPath, ext.drop 1, slideRefFor m name⟩]⟩
        else acc
      else extractLoop m writeOk tempDir es acc
    else extractLoop m writeOk tempDir es acc

/-- `extractMediaFromPPTX`. `mapFail` models `buildMediaToSlideMap` throwing
(in which case the `catch` branch is reached with `media` still empty); the
function always resolves with the media accumulated so far, never with an
error. -/
def extractMediaFromPPTX (z : Zip) (mapFail : Option Str) (writeOk : Str → Bool)
    (tempDir : Str) : ExtractedMedia :=
  match mapFail with
  | some _ => ⟨[], []⟩
  | none => extractLoop (buildMediaToSlideMap z) writeOk tempDir z ⟨[], []⟩

/-- The `MediaFile` record the extractor builds for one matching entry. -/
def mediaAssetOf (m : List (Str × Nat)) (tempDir : Str) (e : Entry) : MediaFile :=
  ⟨basename e.entryName, joinPath tempDir (basename e.entryName),
   (lowerStr (extname e.entryName)).drop 1,
   slideRefFor m (basename e.entryName)⟩

/-- Entries the extractor materializes as images. -/
def isImageEntry (e : Entry) : Bool :=
  includesStr e.entryName mediaDirLit &&
    lowerStr (extname e.entryName) ∈ imageExtensions

/-- Entries the extractor materializes as videos. -/
def isVideoEntry (e : Entry) : Bool :=
  includesStr e.entryName mediaDirLit &&
    (!(lowerStr (extname e.entryName) ∈ imageExtensions)) &&
    lowerStr (extname e.entryName) ∈ videoExtensions

/-! ## Image analyzer: `GeminiImageAnalyzer.analyzeImage`
(src/utils/gemini-image-analyzer.ts)

The understanding service call (upload, inference, and for SVG inputs the
sharp conversion) is modelled as an oracle returning either a thrown error
message or the raw response text; the code-block unwrapping plus `JSON.parse`
of the response is modelled as an oracle returning the parsed object or
`none` when parsing throws. The handling of both outcomes is translated from
the source. -/

/-- The fields of a successfully parsed image-analysis JSON object; a missing
field is `none`. -/
structure ParsedImage where
  extractedText : Option Str
  description : Option Str
  deriving Repr, DecidableEq

/-- `ImageAnalysis` of the source. -/
structure ImageAnalysis where
  extractedText : Str
  description : Str
  deriving Repr, DecidableEq

/-- `AnalysisResult` of the source (the analyzer's return value). -/
structure ImageServiceResult where
  filename : Str
  analysis : ImageAnalysis
  error : Option Str
  deriving Repr, DecidableEq

/-- The error-message rewriting chain in `analyzeImage`'s `catch`. -/
def classifyImageError (msg : Str) : Str :=
  if includesStr msg (("API key").toList) then
    ("Invalid or missing Gemini API key").toList
  else if includesStr msg (("quota").toList) then
    ("Gemini API quota exceeded").toList
  else if includesStr msg (("Unsupported MIME type").toList) then
    ("Unsupported image format for Gemini API").toList
  else msg

/-- `GeminiImageAnalyzer.analyzeImage`: on a thrown service error the `error`
field is set (and the analysis left empty); on an unparsable response the raw
text is kept as `extractedText` with a fixed description and the `error`
field is left unset. -/
def analyzeImage (svc : Str → Except Str Str) (parse : Str → Option ParsedImage)
    (imagePath : Str) : ImageServiceResult :=
  match svc imagePath with
  | Except.error msg =>
    ⟨basename imagePath, ⟨[], []⟩, some (classifyImageError msg)⟩
  | Except.ok responseText =>
    match parse responseText with
    | some parsed =>
      ⟨basename imagePath,
       ⟨(parsed.extractedText.getD []), (parsed.description.getD [])⟩, none⟩
    | none =>
      ⟨basename imagePath,
       ⟨responseText, ("Raw text extraction from Gemini").toList⟩, none⟩

/-! ## Video analyzer: `GeminiVideoAnalyzer.analyzeVideo`
(src/utils/gemini-video-analyzer.ts) -/

/-- A scene entry of the video analysis. -/
structure Scene where
  timestamp : Option Str
  startTime : Option Str
  endTime : Option Str
  description : Str
  deriving Repr, DecidableEq

/-- Fields of a successfully parsed video-analysis JSON object. -/
structure ParsedVideo where
  audioTranscription : Option Str
  visualDescription : Option Str
  scenes : Option (List Scene)
  language : Option Str
  deriving Repr, DecidableEq

/-- The `analysis` record built by `analyzeVideo`. -/
structure VideoAnalysis where
  audioTranscription : Str
  visualDescription : Str
  scenes : List Scene
  duration : Nat
  language : Str
  deriving Repr, DecidableEq

/-- The analyzer's return value. -/
structure VideoServiceResult where
  filename : Str
  analysis : VideoAnalysis
  error : Option Str
  deriving Repr, DecidableEq

/-- The error-message rewriting chain in `analyzeVideo`'s `catch`. -/
def classifyVideoError (msg : Str) : Str :=
  if includesStr msg (("API key").toList) then
    ("Invalid or missing Gemini API key").toList
  else if includesStr msg (("quota").toList) then
    ("Gemini API quota exceeded").toList
  else if includesStr msg (("size").toList) then
    ("Video file too large for Gemini API").toList
  else msg

/-- `GeminiVideoAnalyzer.analyzeVideo`: the ffprobe duration is recorded
first; a thrown service error sets `error`; an unparsable response keeps the
raw text as the transcription. -/
def analyzeVideo (svc : Str → Except Str Str) (parse : Str → Option ParsedVideo)
    (duration : Str → Nat) (videoPath : Str) : VideoServiceResult :=
  match svc videoPath with
  | Except.error msg =>
    ⟨basename videoPath, ⟨[], [], [], duration videoPath, []⟩,
     some (classifyVideoError msg)⟩
  | Except.ok responseText =>
    match parse responseText with
    | some parsed =>
      ⟨basename videoPath,
       ⟨parsed.audioTranscription.getD [], parsed.visualDescription.getD [],
        parsed.scenes.getD [], duration videoPath,
        (match parsed.language with
         | some l => if l = [] then ("unknown").toList else l
         | none => ("unknown").toList)⟩, none⟩
    | none =>
      ⟨basename videoPath,
       ⟨responseText, ("Raw transcription from Gemini").toList, [],
        duration videoPath, []⟩, none⟩

/-! ## PDF analyzer: `GeminiPDFAnalyzer.analyzePDF`
(src/utils/gemini-pdf-analyzer.ts) -/

/-- `PDFAnalysis` of the source: one parsed page of the whole-document pass. -/
structure PDFPageAnalysis where
  pageNumber : Nat
  extractedText : Str
  title : Option Str
  language : Option Str
  error : Option Str
  deriving Repr, DecidableEq

/-- `PDFAnalysisResult` of the source. -/
structure PDFAnalysisResult where
  filename : Str
  text : Option Str
  pages : Option (List PDFPageAnalysis)
  error : Option Str
  pageCount : Option Nat
  deriving Repr, DecidableEq

/-- `GeminiPDFAnalyzer.analyzePDF`: every error thrown inside the method
(size check, upload, processing state, inference) is caught and returned as
an error-carrying result — the method itself never throws. An unparsable
response degrades to a single synthetic page holding the whole text. -/
def analyzePDF (svc : Except Str Str)
    (parse : Str → Option (List PDFPageAnalysis)) (pdfPath : Str) :
    PDFAnalysisResult :=
  match svc with
  | Except.error msg => ⟨basename pdfPath, none, none, some msg, none⟩
  | Except.ok text =>
    let pages := match parse text with
      | some ps => ps
      | none =>
        [⟨1, text, none, none, some (("Failed to parse structured response").toList)⟩]
    ⟨basename pdfPath, some text, some pages, none, some pages.length⟩

/-! ## Orchestrator phases and result aggregation (src/analyze-pptx.ts) -/

/-- `ImageAnalysisResult.analysis` of the source. -/
structure ImgEntryAnalysis where
  text : Option Str
  extractedText : Option Str
  description : Option Str
  language : Option Str
  confidence : Option Str
  error : Option Str
  deriving Repr, DecidableEq

/-- `ImageAnalysisResult` of the source. -/
structure ImageAnalysisResult where
  filename : Str
  pageNumber : SlideRef
  analysis : ImgEntryAnalysis
  deriving Repr, DecidableEq

/-- `VideoAnalysisResult.analysis` of the source. -/
structure VidEntryAnalysis where
  transcription : Option Str
  description : Option Str
  duration : Option Nat
  scenes : Option (List Scene)
  language : Option Str
  error : Option Str
  deriving Repr, DecidableEq

/-- `VideoAnalysisResult` of the source. -/
structure VideoAnalysisResult where
  filename : Str
  pageNumber : SlideRef
  analysis : VidEntryAnalysis
  deriving Repr, DecidableEq

/-- Phase 3 of `main`: one loop iteration per extracted image. `analyzeImage`
is invoked first (it never throws); `copyOk` models the subsequent
`fs.copyFile` into the output directory, whose failure is caught by the
per-image `catch` and only skips recording this image. The returned pair is
the accumulated `imageAnalyses` list and the trace of image paths submitted
to the analyzer. -/
def imagePhase (svc : Str → Except Str Str) (parse : Str → Option ParsedImage)
    (copyOk : Str → Bool) (outputDir : Str) :
    List MediaFile → List ImageAnalysisResult × List Str
  | [] => ([], [])
  | image :: rest =>
    let result := analyzeImage svc parse image.path
    let later := imagePhase svc parse copyOk outputDir rest
    if copyOk (joinPath outputDir image.name) then
      (⟨basename image.name, image.slideNumber,
        ⟨some result.analysis.extractedText, some result.analysis.extractedText,
         some result.analysis.description, none, none, result.error⟩⟩ :: later.1,
       image.path :: later.2)
    else (later.1, image.path :: later.2)

/-- Phase 4 of `main`: one loop iteration per extracted video. Here the
`fs.copyFile` comes first, so a failing copy also skips the analysis of that
video. -/
def videoPhase (svc : Str → Except Str Str) (parse : Str → Option ParsedVideo)
    (duration : Str → Nat) (copyOk : Str → Bool) (outputDir : Str) :
    List MediaFile → List VideoAnalysisResult × List Str
  | [] => ([], [])
  | video :: rest =>
    let later := videoPhase svc parse duration copyOk outputDir rest
    if copyOk (joinPath outputDir video.name) then
      let result := analyzeVideo svc parse duration video.path
      (⟨basename video.name, video.slideNumber,
        ⟨some result.analysis.audioTranscription,
         some result.analysis.visualDescription,
         some result.analysis.duration, some result.analysis.scenes,
         some result.analysis.language, result.error⟩⟩ :: later.1,
       video.path :: later.2)
    else (later.1, later.2)

/-- A page image record inside `PageContent`. -/
structure PageImage where
  filename : Str
  extractedText : Option Str
  description : Option Str
  language : Option Str
  confidence : Option Str
  error : Option Str
  deriving Repr, DecidableEq

/-- A page video record inside `PageContent`. -/
structure PageVideo where
  filename : Str
  transcription : Option Str
  description : Option Str
  duration : Option Nat
  scenes : Option (List Scene)
  language : Option Str
  error : Option Str
  deriving Repr, DecidableEq

/-- `PageContent` of the source: one rendered page with its attached assets. -/
structure PageContent where
  pageNumber : Nat
  pdfContent : PDFPageAnalysis
  images : List PageImage
  videos : List PageVideo
  deriving Repr, DecidableEq

/-- The projection applied to a matching image when attaching it to a page. -/
def toPageImage (img : ImageAnalysisResult) : PageImage :=
  ⟨img.filename, img.analysis.extractedText, img.analysis.description,
   img.analysis.language, img.analysis.confidence, img.analysis.error⟩

/-- The projection applied to a matching video when attaching it to a page. -/
def toPageVideo (vid : VideoAnalysisResult) : PageVideo :=
  ⟨vid.filename, vid.analysis.transcription, vid.analysis.description,
   vid.analysis.duration, vid.analysis.scenes, vid.analysis.language,
   vid.analysis.error⟩

/-- The report document `createResultMarkdown` renders to `result.md`: the
document-information header fields plus the `pageContents` array embedded as
JSON. The markdown text is fully determined by this structure. -/
structure ReportDoc where
  filename : Str
  timestamp : Str
  pageCount : SlideRef
  imageCount : Nat
  videoCount : Nat
  pageContents : List PageContent
  deriving Repr, DecidableEq

/-- `createResultMarkdown`'s page assembly: one `PageContent` per entry of
`pdfAnalysis.pages` in the given order, attaching exactly the assets whose
`pageNumber` strictly equals (`===`) the page's number; when `pages` is
absent the array stays empty. -/
def buildPageContents (pdfPages : Option (List PDFPageAnalysis))
    (imageAnalyses : List ImageAnalysisResult)
    (videoAnalyses : List VideoAnalysisResult) : List PageContent :=
  match pdfPages with
  | none => []
  | some ps =>
    ps.map (fun p =>
      ⟨p.pageNumber, p,
       (imageAnalyses.filter
          (fun img => img.pageNumber == SlideRef.num p.pageNumber)).map toPageImage,
       (videoAnalyses.filter
          (fun vid => vid.pageNumber == SlideRef.num p.pageNumber)).map toPageVideo⟩)

/-- `createResultMarkdown`: assembles the final report document. The
`pageCount` header is `pdfAnalysis.pageCount || "Unknown"`. -/
def createResultMarkdown (filename timestamp : Str)
    (pdfAnalysis : PDFAnalysisResult) (imageAnalyses : List ImageAnalysisResult)
    (videoAnalyses : List VideoAnalysisResult) : ReportDoc :=
  ⟨filename, timestamp,
   (match pdfAnalysis.pageCount with
    | some n => if n = 0 then SlideRef.unknown else SlideRef.num n
    | none => SlideRef.unknown),
   imageAnalyses.length, videoAnalyses.length,
   buildPageContents pdfAnalysis.pages imageAnalyses videoAnalyses⟩

/-! ## Markup rewriter: `changeFontsToArial` (src/analyze-pptx.ts)

The source rewrites each matched XML part with seven successive global regex
replacements. Each replacement is embedded as a left-to-right scan:
at every position the (deterministic, backtracking) regex engine either finds
a match — the replacement is emitted and scanning resumes after the match —
or the character is copied. -/

/-- JavaScript regex `\s` (the whitespace class used by `\s+`). -/
def isJsWs (c : Char) : Bool :=
  c = ' ' || c = '\t' || c = '\n' || c = '\r' || c.val = 0x0b || c.val = 0x0c ||
  c.val = 0xa0 || c.val = 0x1680 || (0x2000 ≤ c.val && c.val ≤ 0x200a) ||
  c.val = 0x2028 || c.val = 0x2029 || c.val = 0x202f || c.val = 0x205f ||
  c.val = 0x3000 || c.val = 0xfeff

/-- Literal `typeface="`. -/
def litTypeface : Str := ("typeface=\"").toList

/-- Literal `Arial`. -/
def arial : Str := ("Arial").toList

/-- A matcher returns, at a given suffix, `(matched, replacement, rest)` when
the regex matches starting exactly there. -/
abbrev Matcher := Str → Option (Str × Str × Str)

/-- Global regex replacement: scan left to right; on a match emit the
replacement and continue after the matched text, otherwise copy one
character. `fuel` bounds the recursion; every matcher consumes at least one
character per match, so an initial fuel of the string length is exact. -/
def scanF (m : Matcher) : Nat → Str → Str
  | 0, s => s
  | _ + 1, [] => []
  | fuel + 1, c :: cs =>
    match m (c :: cs) with
    | some (_, repl, rest) => repl ++ scanF m fuel rest
    | none => c :: scanF m fuel cs

/-- Global replacement of a matcher over a string. -/
def scanStr (m : Matcher) (s : Str) : Str := scanF m s.length s

/-- Matcher of `/typeface="[^"]*"/` (replacement `typeface="Arial"`). -/
def matchTypeface : Matcher := fun s =>
  if litTypeface.isPrefixOf s then
    let rest := s.drop litTypeface.length
    let v := rest.takeWhile (· ≠ '"')
    if v.length < rest.length then
      some (litTypeface ++ v ++ ['"'], litTypeface ++ arial ++ ['"'],
            rest.drop (v.length + 1))
    else none
  else none

/-- Matcher of `/<tag\s+typeface="[^"]*"/` (replacement
`<tag typeface="Arial"`), used with `<a:latin`, `<a:ea` and `<a:cs`. -/
def matchTagWs (tag : Str) : Matcher := fun s =>
  if tag.isPrefixOf s then
    let rest := s.drop tag.length
    let ws := rest.takeWhile isJsWs
    if ws = [] then none
    else
      let rest2 := rest.drop ws.length
      if litTypeface.isPrefixOf rest2 then
        let rest3 := rest2.drop litTypeface.length
        let v := rest3.takeWhile (· ≠ '"')
        if v.length < rest3.length then
          some (tag ++ ws ++ litTypeface ++ v ++ ['"'],
                tag ++ [' '] ++ litTypeface ++ arial ++ ['"'],
                rest3.drop (v.length + 1))
        else none
      else none
  else none

/-- One candidate position for the lazy group of
`/<tag([^>]*?)typeface="[^"]*"([^>]*?)>/`: does `typeface="`, a quoted value
and a `/>`-free tail ending in `>` start right here? Returns
`(v, g2, rest)`. -/
def attrTryHere (cur : Str) : Option (Str × Str × Str) :=
  if litTypeface.isPrefixOf cur then
    let rest3 := cur.drop litTypeface.length
    let v := rest3.takeWhile (· ≠ '"')
    if v.length < rest3.length then
      let afterq := rest3.drop (v.length + 1)
      let g2 := afterq.takeWhile (· ≠ '>')
      if g2.length < afterq.length then
        some (v, g2, afterq.drop (g2.length + 1))
      else none
    else none
  else none

/-- Search for the lazy group `([^>]*?)`: starting from the shortest
`>`-free prefix, find the first split after which the rest of the pattern
completes; on an incomplete candidate the group is extended one character
further, as the backtracking engine does. Returns `(g1, v, g2, rest)`. -/
def attrSearch : Str → Str → Option (Str × Str × Str × Str)
  | cur, g1acc =>
    match attrTryHere cur with
    | some (v, g2, rest) => some (g1acc.reverse, v, g2, rest)
    | none =>
      match cur with
      | [] => none
      | c :: cs => if c = '>' then none else attrSearch cs (c :: g1acc)

/-- Matcher of `/<tag([^>]*?)typeface="[^"]*"([^>]*?)>/` (replacement
`<tag$1typeface="Arial"$2>`). -/
def matchTagAttr (tag : Str) : Matcher := fun s =>
  if tag.isPrefixOf s then
    match attrSearch (s.drop tag.length) [] with
    | some (g1, v, g2, rest) =>
      some (tag ++ g1 ++ litTypeface ++ v ++ ['"'] ++ g2 ++ ['>'],
            tag ++ g1 ++ litTypeface ++ arial ++ ['"'] ++ g2 ++ ['>'], rest)
    | none => none
  else none

/-- Literal `<a:latin`. -/
def tagLatin : Str := ("<a:latin").toList

/-- Literal `<a:ea`. -/
def tagEa : Str := ("<a:ea").toList

/-- Literal `<a:cs`. -/
def tagCs : Str := ("<a:cs").toList

/-- The seven replacements of `changeFontsToArial` applied to one XML part,
in source order. -/
def fontsPipeline (s : Str) : Str :=
  scanStr (matchTagAttr tagCs)
    (scanStr (matchTagAttr tagEa)
      (scanStr (matchTagAttr tagLatin)
        (scanStr (matchTagWs tagCs)
          (scanStr (matchTagWs tagEa)
            (scanStr (matchTagWs tagLatin)
              (scanStr matchTypeface s))))))

/-- The slide/theme/master/layout name test of `changeFontsToArial`. -/
def isFontTargetName (n : Str) : Bool :=
  (startsWithStr n (("ppt/slides/slide").toList) &&
     endsWithStr n ((".xml").toList)) ||
  (startsWithStr n (("ppt/theme/theme").toList) &&
     endsWithStr n ((".xml").toList)) ||
  (startsWithStr n (("ppt/slideMasters/").toList) &&
     endsWithStr n ((".xml").toList)) ||
  (startsWithStr n (("ppt/slideLayouts/").toList) &&
     endsWithStr n ((".xml").toList))

/-- `changeFontsToArial`: rewrites the typography of every matched part,
leaving all other entries untouched (`zip.updateFile` keeps names and
order). -/
def changeFontsToArial (z : Zip) : Zip :=
  z.map (fun e =>
    if isFontTargetName e.entryName then ⟨e.entryName, fontsPipeline e.data⟩
    else e)

/-- A matcher only ever consumes a non-empty part of the input. -/
def MShrink (m : Matcher) : Prop :=
  ∀ s t r rest, m s = some (t, r, rest) → rest.length < s.length

/-- A matcher's matched text plus rest reassemble the input. -/
def MSplits (m : Matcher) : Prop :=
  ∀ s t r rest, m s = some (t, r, rest) → s = t ++ rest

/-- Normal form established by the first replacement: every complete
`typeface="…"` attribute (a `typeface="` occurrence whose value runs
quote-free to a closing quote) carries the value `Arial`. -/
def PArial (s : Str) : Prop :=
  ∀ A V B, s = A ++ (litTypeface ++ (V ++ '"' :: B)) → (('"' : Char) ∉ V) →
    V = arial

/-- Normal form established by one whitespace-collapsing replacement:
every occurrence of `tg`, a non-empty whitespace run and a complete
`typeface="…"` attribute has exactly a single-space run. -/
def QTag (tg s : Str) : Prop :=
  ∀ A w V B, s = A ++ (tg ++ (w ++ (litTypeface ++ (V ++ '"' :: B)))) →
    w ≠ [] → (∀ c ∈ w, isJsWs c = true) → (('"' : Char) ∉ V) → w = [' ']

/-- The replacement text of `matchTagWs tg`. -/
def wsRepl (tg : Str) : Str :=
  tg ++ ([' '] ++ (litTypeface ++ (arial ++ ['"'])))

/-! ## Rendering adapter: `LibreOfficeConverter.removeVideosFromPptx` /
`convertToPdf` (src/utils/media-transcriber.js, LibreOfficeConverter) -/

/-- The video extension list of `removeVideosFromPptx` (note: no `.mkv`). -/
def stripVideoExts : List Str :=
  [(".mp4").toList, (".avi").toList, (".mov").toList, (".wmv").toList,
   (".mpg").toList, (".mpeg").toList, (".m4v").toList, (".webm").toList]

/-- The test deciding which media entries are dropped from the rendering
copy. -/
def isStripVideo (name : Str) : Bool :=
  startsWithStr name (("ppt/media/").toList) &&
    stripVideoExts.any (fun ext => endsWithStr (lowerStr name) ext)

/-- Case-insensitive literal prefix test (`/i` flag). -/
def ciPrefixOf (p s : Str) : Bool := (lowerStr p).isPrefixOf (lowerStr s)

/-- Literal `<Relationship`. -/
def litRelationshipTag : Str := ("<Relationship").toList

/-- Literal `Target="`. -/
def litTargetAttr : Str := ("Target=\"").toList

/-- Completion test of the video-relationship regex once the first `[^>]*`
group has been fixed to `after.take j`: a case-insensitive `Target="`, a
quoted value ending in one of the video extensions, and a `/>`-terminated
tail; returns the rest after the match. -/
def relTryAt (after : Str) (j : Nat) : Option Str :=
  let cur := after.drop j
  if ciPrefixOf litTargetAttr cur then
    let rest := cur.drop litTargetAttr.length
    let v := rest.takeWhile (· ≠ '"')
    if v.length < rest.length then
      if stripVideoExts.any (fun ext => endsWithStr (lowerStr v) ext) then
        let afterq := rest.drop (v.length + 1)
        let b := afterq.takeWhile (· ≠ '>')
        if b.length < afterq.length && b ≠ [] && b.getLast? = some '/' then
          some (afterq.drop (b.length + 1))
        else none
      else none
    else none
  else none

/-- Greedy descent for the first `[^>]*` group: longest `>`-free prefix
first. -/
def relGreedy (after : Str) : Nat → Option Str
  | 0 => relTryAt after 0
  | j + 1 =>
    match relTryAt after (j + 1) with
    | some r => some r
    | none => relGreedy after j

/-- Matcher of
`/<Relationship[^>]*Target="[^"]*\.(mp4|avi|mov|wmv|mpg|mpeg|m4v|webm)"[^>]*\/>/gi`
(replacement: empty string). -/
def matchVideoRel : Matcher := fun s =>
  if ciPrefixOf litRelationshipTag s then
    let after := s.drop litRelationshipTag.length
    let maxA := after.takeWhile (· ≠ '>')
    match relGreedy after maxA.length with
    | some rest => some (s.take (s.length - rest.length), [], rest)
    | none => none
  else none

/-- The video-relationship cleanup applied to `.rels` part bodies. -/
def cleanRelsContent (s : Str) : Str := scanStr matchVideoRel s

/-- `removeVideosFromPptx`: builds a new container for rendering, skipping
video media entries and scrubbing video relationships from `.rels` parts;
every other entry is carried over unchanged. The source container value is
not modified. -/
def removeVideosFromPptx : Zip → Zip
  | [] => []
  | e :: es =>
    if isStripVideo e.entryName then removeVideosFromPptx es
    else if includesStr e.entryName ((".rels").toList) then
      ⟨e.entryName, cleanRelsContent e.data⟩ :: removeVideosFromPptx es
    else e :: removeVideosFromPptx es

/-- `convertToPdf` (pure content): the external renderer is invoked on the
video-free copy, never on the canonical container; the copy is deleted in the
`finally` block and is not returned to the caller. -/
def convertToPdf (z : Zip) (render : Zip → Except Str Str) : Except Str Str :=
  render (removeVideosFromPptx z)

/-! ## The end-to-end run of `main` (src/analyze-pptx.ts) -/

/-- Oracles and inputs of one `main` run. -/
structure MainEnv where
  zipEntries : Zip
  filename : Str
  timestamp : Str
  tempDir : Str
  outputDir : Str
  extractMapFail : Option Str
  extractWriteOk : Str → Bool
  fontFails : Bool
  libreAvailable : Bool
  render : Zip → Except Str Str
  imgSvc : Str → Except Str Str
  imgParse : Str → Option ParsedImage
  imgCopyOk : Str → Bool
  vidSvc : Str → Except Str Str
  vidParse : Str → Option ParsedVideo
  vidDuration : Str → Nat
  vidCopyOk : Str → Bool
  pdfSvc : Except Str Str
  pdfParse : Str → Option (List PDFPageAnalysis)

/-- Terminal outcome of a run: the report written to `result.md`, or the
error that escaped `main` (making the spawned process exit non-zero). -/
inductive RunOutcome where
  | completed (report : ReportDoc)
  | failed (msg : Str)
  deriving Repr, DecidableEq

/-- `main`: extraction, font normalization (with fallback to the original
container), PDF rendering (fatal on failure), the two per-asset phases, the
whole-document pass, then report creation. -/
def mainRun (env : MainEnv) : RunOutcome :=
  let extracted :=
    extractMediaFromPPTX env.zipEntries env.extractMapFail env.extractWriteOk
      env.tempDir
  let modifiedZip :=
    if env.fontFails then env.zipEntries else changeFontsToArial env.zipEntries
  if !env.libreAvailable then
    RunOutcome.failed (("LibreOffice is not installed. Cannot convert to PDF.").toList)
  else
    match convertToPdf modifiedZip env.render with
    | Except.error msg => RunOutcome.failed msg
    | Except.ok pdfPath =>
      if pdfPath = [] then
        RunOutcome.failed (("PDF conversion failed - no PDF path returned").toList)
      else
        let imageAnalyses :=
          (imagePhase env.imgSvc env.imgParse env.imgCopyOk env.outputDir
            extracted.images).1
        let videoAnalyses :=
          (videoPhase env.vidSvc env.vidParse env.vidDuration env.vidCopyOk
            env.outputDir extracted.videos).1
        let pdfAnalysis := analyzePDF env.pdfSvc env.pdfParse pdfPath
        RunOutcome.completed
          (createResultMarkdown env.filename env.timestamp pdfAnalysis
            imageAnalyses videoAnalyses)

/-! ## Job runner: `processJob` (src/lib/server/process-job) -/

/-- A JavaScript thrown value: an `Error` instance carrying a message, or any
other value. -/
inductive JsValue where
  | errObj (msg : Str)
  | nonError (repr : Str)
  deriving Repr, DecidableEq

/-- `error instanceof Error ? error.message : "Unknown error"` — the error
detail recorded on the job record when a run fails. -/
def errorDetailOf : JsValue → Str
  | JsValue.errObj m => m
  | JsValue.nonError _ => ("Unknown error").toList

/-- Matcher of `/\s+/` for `replace(/\s+/g, "_")`. -/
def matchWsRun : Matcher := fun s =>
  let ws := s.takeWhile isJsWs
  if ws = [] then none else some (ws, ['_'], s.drop ws.length)

/-- `baseFilename.replace(/\s+/g, "_")`. -/
def replaceWsUnderscore (s : Str) : Str := scanStr matchWsRun s

/-- `path.basename(name, ".pptx")`: the basename with one trailing `.pptx`
stripped. -/
def basenameNoPptx (s : Str) : Str :=
  let b := basename s
  if endsWithStr b ((".pptx").toList) then b.take (b.length - 5) else b

/-- Code-unit comparison backing JavaScript's default `Array.prototype.sort`
on strings. -/
def strLe : Str → Str → Bool
  | [], _ => true
  | _ :: _, [] => false
  | a :: as, b :: bs =>
    if a.val < b.val then true else if b.val < a.val then false else strLe as bs

/-- Terminal update written to the job record by `processJob`. -/
inductive JobResult where
  | completed (outputDir : Str)
  | failed (errorDetail : Str)
  deriving Repr, DecidableEq

/-- `processJob` (terminal-state logic): any value thrown during the run is
recorded through `errorDetailOf`; on success the newest matching output
directory is selected (filter by the transformed filename, sort, pop), its
absence being one more thrown `Error`. -/
def processJob (fileRecordExists : Bool) (originalName : Str)
    (analysisRun : Except JsValue Unit) (outputDirs : List Str) : JobResult :=
  if !fileRecordExists then
    JobResult.failed (errorDetailOf (JsValue.errObj (("No file found for job").toList)))
  else
    match analysisRun with
    | Except.error v => JobResult.failed (errorDetailOf v)
    | Except.ok _ =>
      let transformed := replaceWsUnderscore (basenameNoPptx originalName)
      let candidates :=
        (outputDirs.filter (fun d => includesStr d transformed)).mergeSort strLe
      match candidates.getLast? with
      | none =>
        JobResult.failed
          (errorDetailOf (JsValue.errObj (("Output directory not found").toList)))
      | some dir => JobResult.completed dir

/-! ## Concrete instances used to evaluate the claims -/

/-- A slide-1 relationship part referencing `media/image1.png`. -/
def relsEntrySlide1 : Entry :=
  ⟨("ppt/slides/_rels/slide1.xml.rels").toList,
   ("<Relationship Id=\"rId2\" Target=\"../media/image1.png\"/>").toList⟩

/-- A slide-2 relationship part referencing the same `media/image1.png`. -/
def relsEntrySlide2 : Entry :=
  ⟨("ppt/slides/_rels/slide2.xml.rels").toList,
   ("<Relationship Id=\"rId5\" Target=\"../media/image1.png\"/>").toList⟩

/-- A container in which slides 1 and 2 both reference `image1.png`, the
referencing parts appearing in ascending slide order. -/
def zipSharedImage : Zip := [relsEntrySlide1, relsEntrySlide2]

/-- A container holding one media image referenced by no slide. -/
def zipOrphanImage : Zip := [⟨("ppt/media/orphan.png").toList, ("d").toList⟩]

/-- A container with two media images, for exercising a failing write. -/
def zipTwoImages : Zip :=
  [⟨("ppt/media/a.png").toList, ("x").toList⟩,
   ⟨("ppt/media/b.png").toList, ("y").toList⟩]

/-- A write oracle that fails exactly on the scratch path of `b.png`. -/
def writeOkNotB (p : Str) : Bool := !(p == ("tmp/b.png").toList)

/-- A container whose only media entry is a `.mkv` video. -/
def zipMkv : Zip := [⟨("ppt/media/movie.mkv").toList, ("v").toList⟩]

/-- Page 1 of a whole-document analysis. -/
def pdfPageOne : PDFPageAnalysis := ⟨1, ("Slide one text").toList, none, none, none⟩

/-- A successful whole-document result with the single page `pdfPageOne`. -/
def pdfResultOnePage : PDFAnalysisResult :=
  ⟨("out.pdf").toList, some (("raw").toList), some [pdfPageOne], none, some 1⟩

/-- An image analysis whose owning slide could not be resolved. -/
def imgUnknownSlide : ImageAnalysisResult :=
  ⟨("img1.png").toList, SlideRef.unknown,
   ⟨some (("text in image").toList), some (("text in image").toList),
    some (("a chart").toList), none, none, none⟩⟩

/-- A media file owned by slide 1, as handed to the image phase. -/
def imageOnSlide1 : MediaFile :=
  ⟨("img1.png").toList, ("tmp/img1.png").toList, ("png").toList, SlideRef.num 1⟩

/-- An understanding-service oracle returning a fixed parsable response. -/
def svcEmptyText (_ : Str) : Except Str Str := Except.ok (("resp").toList)

/-- A parse oracle whose extracted text is the empty string. -/
def parseEmptyText (_ : Str) : Option ParsedImage :=
  some ⟨some [], some (("a logo").toList)⟩

/-- A parse oracle modelling `JSON.parse` throwing on every response. -/
def parseNever (_ : Str) : Option ParsedImage := none

/-- A benign environment in which the whole-document understanding pass
errors (`pdfSvc`) while everything else succeeds. -/
def envPdfError : MainEnv :=
  ⟨[], ("deck").toList, ("ts").toList, ("tmp").toList, ("out").toList,
   none, fun _ => true, false, true, fun _ => Except.ok (("out.pdf").toList),
   fun _ => Except.ok [], fun _ => none, fun _ => true,
   fun _ => Except.ok [], fun _ => none, fun _ => 0, fun _ => true,
   Except.error (("Gemini quota exceeded").toList), fun _ => none⟩

/-- An environment with one image whose service response is unparsable, and
an otherwise successful run. -/
def envUnparsableImage : MainEnv :=
  ⟨[⟨("ppt/media/image1.png").toList, ("d").toList⟩],
   ("deck").toList, ("ts").toList, ("tmp").toList, ("out").toList,
   none, fun _ => true, false, true, fun _ => Except.ok (("out.pdf").toList),
   fun _ => Except.ok (("plain words").toList), parseNever, fun _ => true,
   fun _ => Except.ok [], fun _ => none, fun _ => 0, fun _ => true,
   Except.ok (("[]").toList), fun _ => some []⟩

/-! # Theorems -/

/-! ## Association-list lemmas for the media map -/

theorem mapLookup_nil (k : Str) : mapLookup [] k = none := rfl

theorem mapLookup_cons (kv : Str × Nat) (m : List (Str × Nat)) (k : Str) :
    mapLookup (kv :: m) k =
      if kv.1 = k then some kv.2 else mapLookup m k := by
  by_cases h : kv.1 = k
  · have hb : (kv.1 == k) = true := by simpa using h
    simp [mapLookup, List.find?, hb, h]
  · have hb : (kv.1 == k) = false := by simpa using h
    simp [mapLookup, List.find?, hb, h]

theorem mapLookup_upsert (m : List (Str × Nat)) (a : Str) (b : Nat) (k : Str) :
    mapLookup (upsert m a b) k = if a = k then some b else mapLookup m k := by
  induction m with
  | nil =>
    show mapLookup [(a, b)] k = _
    simp only [mapLookup_cons, mapLookup_nil]
  | cons hd tl ih =>
    by_cases h0 : hd.1 = a
    · simp only [upsert, h0, if_true, mapLookup_cons]
      by_cases h : a = k
      · simp [h]
      · have hk : ¬ hd.1 = k := by rw [h0]; exact h
        simp [h, hk]
    · simp only [upsert, h0, if_false, mapLookup_cons, ih]
      by_cases h1 : hd.1 = k <;> by_cases h2 : a = k
      · exact absurd (h1.trans h2.symm) h0
      · simp [h1, h2]
      · simp [h1, h2]
      · simp [h1, h2]

theorem lookup_foldl_upsert (ws : List (Str × Nat)) :
    ∀ (m : List (Str × Nat)) (k : Str),
      mapLookup (ws.foldl (fun acc kv => upsert acc kv.1 kv.2) m) k =
        (match ws.reverse.find? (fun kv => kv.1 == k) with
         | some kv => some kv.2
         | none => mapLookup m k) := by
  induction ws with
  | nil => intro m k; simp
  | cons hd tl ih =>
    intro m k
    simp only [List.foldl_cons, List.reverse_cons]
    rw [ih, List.find?_append]
    cases htl : tl.reverse.find? (fun kv => kv.1 == k) with
    | some kv => simp [Option.or]
    | none =>
      simp only [Option.or]
      rw [mapLookup_upsert]
      by_cases h : hd.1 = k
      · have hb : (hd.1 == k) = true := by simpa using h
        simp [List.find?, hb, h]
      · have hb : (hd.1 == k) = false := by simpa using h
        simp [List.find?, hb, h]

/-- C4, counterexample: in a container where slides 1 and 2 (in ascending
order) both reference `image1.png`, the map resolves the name to slide 2,
not to the first slide encountered. -/
theorem mediaMap_firstSlide_cex :
    mediaWrites zipSharedImage =
      [((("image1.png").toList), 1), ((("image1.png").toList), 2)] ∧
    mapLookup (buildMediaToSlideMap zipSharedImage) (("image1.png").toList) =
      some 2 := by
  constructor <;> decide

/-- C4, amended: when several slides' relationship parts reference the same
media filename, the assignment written last in container-entry order wins
(each later write overwrites the earlier one), so for relationship parts
appearing in ascending slide order the highest-numbered referencing slide is
recorded, not the lowest. -/
theorem buildMediaToSlideMap_lastWriteWins (z : Zip) (name : Str) :
    mapLookup (buildMediaToSlideMap z) name =
      (match (mediaWrites z).reverse.find? (fun kv => kv.1 == name) with
       | some kv => some kv.2
       | none => none) := by
  unfold buildMediaToSlideMap
  rw [lookup_foldl_upsert]
  cases (mediaWrites z).reverse.find? (fun kv => kv.1 == name) <;>
    simp [mapLookup]

/-- C5, counterexample: a run that fails with a thrown non-`Error` value
records the generic `"Unknown error"` as its terminal error detail. -/
theorem processJob_unknownError_cex :
    processJob true (("deck.pptx").toList)
      (Except.error (JsValue.nonError (("oops").toList))) [] =
      JobResult.failed (("Unknown error").toList) := by
  decide

/-- C5, amended: a failing run records the thrown value's `message` when that
value is an `Error` instance (with no non-emptiness guarantee), and the
literal `"Unknown error"` otherwise. -/
theorem processJob_failed_detail (name : Str) (v : JsValue) (dirs : List Str) :
    processJob true name (Except.error v) dirs =
      JobResult.failed (errorDetailOf v) ∧
    ((∃ m, v = JsValue.errObj m ∧ errorDetailOf v = m) ∨
      ((∀ m, v ≠ JsValue.errObj m) ∧
        errorDetailOf v = ("Unknown error").toList)) := by
  refine ⟨by simp [processJob], ?_⟩
  cases v with
  | errObj m => exact Or.inl ⟨m, rfl, rfl⟩
  | nonError r => exact Or.inr ⟨fun m h => JsValue.noConfusion h, rfl⟩

/-- C6, counterexample: when the understanding service's response fails to
parse, the raw response is kept as the extracted text but the `error` field
is left unset, and the surrounding run still completes. -/
theorem analyzeImage_parseFailure_cex :
    (analyzeImage (fun _ => Except.ok (("plain words").toList)) parseNever
        (("tmp/img1.png").toList)).analysis.extractedText =
      ("plain words").toList ∧
    (analyzeImage (fun _ => Except.ok (("plain words").toList)) parseNever
        (("tmp/img1.png").toList)).error = none ∧
    ∃ r, mainRun envUnparsableImage = RunOutcome.completed r := by
  refine ⟨by decide, by decide, ?_⟩
  exact ⟨_, rfl⟩

/-- C6, amended: a response that fails to parse is downgraded to unstructured
text — the raw response becomes the extracted text with a fixed description —
while the `error` field is NOT set (it is set only when the analysis call
itself throws), and the run still reaches the completed state. -/
theorem analyzeImage_parse_soft_failure (env : MainEnv) (raw p : Str)
    (himg : ∀ q, env.imgSvc q = Except.ok raw)
    (hparse : env.imgParse raw = none)
    (hlib : env.libreAvailable = true)
    (hrender :
      env.render (removeVideosFromPptx
        (if env.fontFails then env.zipEntries
         else changeFontsToArial env.zipEntries)) = Except.ok p)
    (hp : p ≠ []) :
    (∀ q, analyzeImage env.imgSvc env.imgParse q =
      ⟨basename q, ⟨raw, ("Raw text extraction from Gemini").toList⟩, none⟩) ∧
    ∃ r, mainRun env = RunOutcome.completed r := by
  constructor
  · intro q
    simp [analyzeImage, himg q, hparse]
  · simp only [mainRun, convertToPdf, hlib, hrender, Bool.not_true,
      Bool.false_eq_true, if_false, if_neg hp]
    exact ⟨_, rfl⟩

/-- C6, witness: the amended statement applied to the concrete environment
with an unparsable image response. -/
theorem analyzeImage_parse_soft_failure_witness :
    (∀ q, analyzeImage envUnparsableImage.imgSvc envUnparsableImage.imgParse q =
      ⟨basename q,
       ⟨("plain words").toList, ("Raw text extraction from Gemini").toList⟩,
       none⟩) ∧
    ∃ r, mainRun envUnparsableImage = RunOutcome.completed r :=
  analyzeImage_parse_soft_failure envUnparsableImage (("plain words").toList)
    (("out.pdf").toList) (fun _ => rfl) rfl rfl rfl (by decide)

/-- C9, counterexample: a `.mkv` media entry — a video by the pipeline's own
classification — survives `removeVideosFromPptx` and is therefore still
present in the copy handed to the rendering service. -/
theorem removeVideos_mkvRetained_cex :
    removeVideosFromPptx zipMkv = zipMkv ∧
    (zipMkv.map isVideoEntry) = [true] := by
  constructor <;> decide

/-- C9, amended: the rendering copy drops exactly the media entries whose
lowercased name ends in `.mp4/.avi/.mov/.wmv/.mpg/.mpeg/.m4v/.webm` (so a
`.mkv` video is not stripped); every other entry is carried over by name, and
the renderer is invoked on this throwaway copy while the canonical container
is left as it was. -/
theorem removeVideosFromPptx_strips (z : Zip) (render : Zip → Except Str Str) :
    (∀ e ∈ removeVideosFromPptx z, isStripVideo e.entryName = false) ∧
    (removeVideosFromPptx z).map (·.entryName) =
      (z.filter (fun e => !isStripVideo e.entryName)).map (·.entryName) ∧
    convertToPdf z render = render (removeVideosFromPptx z) := by
  refine ⟨?_, ?_, rfl⟩
  · induction z with
    | nil => intro e he; simp [removeVideosFromPptx] at he
    | cons hd tl ih =>
      intro e he
      simp only [removeVideosFromPptx] at he
      by_cases h : isStripVideo hd.entryName = true
      · rw [if_pos h] at he
        exact ih e he
      · rw [if_neg h] at he
        have hfalse : isStripVideo hd.entryName = false :=
          Bool.not_eq_true _ ▸ h
        by_cases h2 : includesStr hd.entryName ((".rels").toList) = true
        · rw [if_pos h2] at he
          rcases List.mem_cons.mp he with rfl | hmem
          · exact hfalse
          · exact ih _ hmem
        · rw [if_neg h2] at he
          rcases List.mem_cons.mp he with rfl | hmem
          · exact hfalse
          · exact ih _ hmem
  · induction z with
    | nil => rfl
    | cons hd tl ih =>
      simp only [removeVideosFromPptx, List.filter_cons]
      split_ifs <;> simp_all [ih]

/-- C9, witness: the amended statement applied to the `.mkv` container, with
the membership hypothesis discharged at its only entry. -/
theorem removeVideosFromPptx_strips_witness :
    isStripVideo (("ppt/media/movie.mkv").toList) = false :=
  (removeVideosFromPptx_strips zipMkv (fun _ => Except.ok [])).1
    ⟨("ppt/media/movie.mkv").toList, ("v").toList⟩ (by decide)

/-! ## Aggregation lemmas -/

theorem pageContent_assets (pdfPages : Option (List PDFPageAnalysis))
    (imgs : List ImageAnalysisResult) (vids : List VideoAnalysisResult)
    (pc : PageContent) (h : pc ∈ buildPageContents pdfPages imgs vids) :
    pc.images =
      (imgs.filter
        (fun i => i.pageNumber == SlideRef.num pc.pageNumber)).map toPageImage ∧
    pc.videos =
      (vids.filter
        (fun v => v.pageNumber == SlideRef.num pc.pageNumber)).map toPageVideo := by
  cases pdfPages with
  | none => simp [buildPageContents] at h
  | some ps =>
    simp only [buildPageContents, List.mem_map] at h
    obtain ⟨p, _, rfl⟩ := h
    exact ⟨rfl, rfl⟩

/-- C2, counterexample: an `AssetAnalysis` whose owning slide is unknown
appears nowhere in the report — there is no unassigned-media section, so the
asset is silently dropped from the report output. -/
theorem report_unassigned_dropped_cex :
    imgUnknownSlide.pageNumber = SlideRef.unknown ∧
    (createResultMarkdown (("deck").toList) (("ts").toList) pdfResultOnePage
        [imgUnknownSlide] []).pageContents = [⟨1, pdfPageOne, [], []⟩] := by
  constructor
  · rfl
  · rfl

/-- C2, amended: the report contains one entry per page of the
whole-document analysis, in the order produced by that analysis (not
re-sorted); an asset with numeric owning slide `n` is attached to exactly the
report pages whose number equals `n`; an asset whose owning slide is unknown
is attached to no page, and — the report having no unassigned-media
section — it does not appear in the report output at all. -/
theorem createResultMarkdown_attachment (fn ts : Str)
    (pdfA : PDFAnalysisResult) (imgs : List ImageAnalysisResult)
    (vids : List VideoAnalysisResult) :
    (createResultMarkdown fn ts pdfA imgs vids).pageContents.map
        PageContent.pdfContent = pdfA.pages.getD [] ∧
    (∀ pc ∈ (createResultMarkdown fn ts pdfA imgs vids).pageContents,
      (∀ i ∈ imgs, i.pageNumber = SlideRef.num pc.pageNumber →
        toPageImage i ∈ pc.images) ∧
      (∀ x ∈ pc.images, ∃ i ∈ imgs,
        x = toPageImage i ∧ i.pageNumber = SlideRef.num pc.pageNumber) ∧
      (∀ v ∈ vids, v.pageNumber = SlideRef.num pc.pageNumber →
        toPageVideo v ∈ pc.videos) ∧
      (∀ x ∈ pc.videos, ∃ v ∈ vids,
        x = toPageVideo v ∧ v.pageNumber = SlideRef.num pc.pageNumber)) := by
  constructor
  · cases hp : pdfA.pages with
    | none => simp [createResultMarkdown, buildPageContents, hp]
    | some ps =>
      simp only [createResultMarkdown, buildPageContents, hp,
        Option.getD_some, List.map_map]
      exact List.map_id ps
  · intro pc hpc
    have hassets := pageContent_assets pdfA.pages imgs vids pc
      (by simpa [createResultMarkdown] using hpc)
    refine ⟨?_, ?_, ?_, ?_⟩
    · intro i hi hnum
      rw [hassets.1]
      exact List.mem_map_of_mem _
        (List.mem_filter.mpr ⟨hi, by simp [hnum]⟩)
    · intro x hx
      rw [hassets.1] at hx
      obtain ⟨i, hi, rfl⟩ := List.mem_map.mp hx
      obtain ⟨hmem, hbeq⟩ := List.mem_filter.mp hi
      exact ⟨i, hmem, rfl, by simpa using hbeq⟩
    · intro v hv hnum
      rw [hassets.2]
      exact List.mem_map_of_mem _
        (List.mem_filter.mpr ⟨hv, by simp [hnum]⟩)
    · intro x hx
      rw [hassets.2] at hx
      obtain ⟨v, hv, rfl⟩ := List.mem_map.mp hx
      obtain ⟨hmem, hbeq⟩ := List.mem_filter.mp hv
      exact ⟨v, hmem, rfl, by simpa using hbeq⟩

/-- C2, witness: the amended statement applied to the one-page report with
one unknown-slide asset. -/
theorem createResultMarkdown_attachment_witness :
    (createResultMarkdown (("deck").toList) (("ts").toList) pdfResultOnePage
        [imgUnknownSlide] []).pageContents.map PageContent.pdfContent =
      [pdfPageOne] ∧
    ∀ x ∈ (⟨1, pdfPageOne, [], []⟩ : PageContent).images,
      ∃ i ∈ [imgUnknownSlide],
        x = toPageImage i ∧ i.pageNumber = SlideRef.num 1 := by
  have h := createResultMarkdown_attachment (("deck").toList) (("ts").toList)
    pdfResultOnePage [imgUnknownSlide] []
  refine ⟨h.1, ?_⟩
  exact ((h.2 ⟨1, pdfPageOne, [], []⟩ (by decide)).2).1

/-- C3, counterexample: an image whose extracted text is empty after analysis
is recorded in the run's analysis results AND still appears in the final
report attached to its page — it is not excluded. -/
theorem emptyText_included_cex :
    ((imagePhase svcEmptyText parseEmptyText (fun _ => true) (("out").toList)
        [imageOnSlide1]).1).map (fun rcd => rcd.analysis.extractedText) =
      [some []] ∧
    (imagePhase svcEmptyText parseEmptyText (fun _ => true) (("out").toList)
        [imageOnSlide1]).2 = [imageOnSlide1.path] ∧
    (createResultMarkdown (("deck").toList) (("ts").toList) pdfResultOnePage
        (imagePhase svcEmptyText parseEmptyText (fun _ => true)
          (("out").toList) [imageOnSlide1]).1 []).pageContents.map
        (fun pc => pc.images.map PageImage.filename) =
      [[("img1.png").toList]] := by
  refine ⟨rfl, rfl, rfl⟩

/-- C3, amended: analysis runs for every extracted image (the analyzer is
invoked once per image, before any filtering), and an image with empty
extracted text is recorded in the analysis results and included in the
report like any other asset — no report line is omitted on account of empty
text. -/
theorem imagePhase_empty_text_kept (svc : Str → Except Str Str)
    (parse : Str → Option ParsedImage) (dir fn ts : Str)
    (images : List MediaFile) (pdfA : PDFAnalysisResult)
    (vids : List VideoAnalysisResult) :
    (imagePhase svc parse (fun _ => true) dir images).2 =
      images.map MediaFile.path ∧
    ((imagePhase svc parse (fun _ => true) dir images).1).map
        (fun rcd => (rcd.filename, rcd.pageNumber)) =
      images.map (fun i => (basename i.name, i.slideNumber)) ∧
    (∀ rcd ∈ (imagePhase svc parse (fun _ => true) dir images).1,
      ∀ pc ∈ (createResultMarkdown fn ts pdfA
          (imagePhase svc parse (fun _ => true) dir images).1
          vids).pageContents,
        rcd.pageNumber = SlideRef.num pc.pageNumber →
          toPageImage rcd ∈ pc.images) := by
  refine ⟨?_, ?_, ?_⟩
  · induction images with
    | nil => rfl
    | cons hd tl ih => simp [imagePhase, ih]
  · induction images with
    | nil => rfl
    | cons hd tl ih => simp [imagePhase, ih]
  · intro rcd hrcd pc hpc hnum
    have hassets := pageContent_assets pdfA.pages _ vids pc
      (by simpa [createResultMarkdown] using hpc)
    rw [hassets.1]
    exact List.mem_map_of_mem _
      (List.mem_filter.mpr ⟨hrcd, by simp [hnum]⟩)

/-- C3, witness: the amended statement applied to the empty-text image on
slide 1 with a one-page document analysis. -/
theorem imagePhase_empty_text_kept_witness :
    (imagePhase svcEmptyText parseEmptyText (fun _ => true) (("out").toList)
        [imageOnSlide1]).2 = [imageOnSlide1].map MediaFile.path ∧
    ∀ rcd ∈ (imagePhase svcEmptyText parseEmptyText (fun _ => true)
        (("out").toList) [imageOnSlide1]).1,
      ∀ pc ∈ (createResultMarkdown (("deck").toList) (("ts").toList)
          pdfResultOnePage
          (imagePhase svcEmptyText parseEmptyText (fun _ => true)
            (("out").toList) [imageOnSlide1]).1 []).pageContents,
        rcd.pageNumber = SlideRef.num pc.pageNumber →
          toPageImage rcd ∈ pc.images := by
  have h := imagePhase_empty_text_kept svcEmptyText parseEmptyText
    (("out").toList) (("deck").toList) (("ts").toList) [imageOnSlide1]
    pdfResultOnePage []
  exact ⟨h.1, h.2.2⟩

/-- C1, counterexample: a run in which the whole-document pass errors still
writes a report (with an empty pages section) and completes — the job does
not end in the failed state. -/
theorem pdfFailure_completes_cex :
    analyzePDF (Except.error (("Gemini quota exceeded").toList))
        (fun _ => none) (("out.pdf").toList) =
      ⟨("out.pdf").toList, none, none,
       some (("Gemini quota exceeded").toList), none⟩ ∧
    mainRun envPdfError =
      RunOutcome.completed
        ⟨("deck").toList, ("ts").toList, SlideRef.unknown, 0, 0, []⟩ := by
  constructor
  · rfl
  · rfl

/-- C1, amended: when the whole-document pass errors, `analyzePDF` returns an
error-carrying result instead of throwing; `main` does not inspect it, so the
pipeline goes on to write a report whose pages section is empty and the run
reaches the completed state — the failure is not fatal to the job. -/
theorem mainRun_pdfAnalysisError_completes (env : MainEnv) (m p : Str)
    (hpdf : env.pdfSvc = Except.error m)
    (hlib : env.libreAvailable = true)
    (hrender :
      env.render (removeVideosFromPptx
        (if env.fontFails then env.zipEntries
         else changeFontsToArial env.zipEntries)) = Except.ok p)
    (hp : p ≠ []) :
    analyzePDF env.pdfSvc env.pdfParse p =
      ⟨basename p, none, none, some m, none⟩ ∧
    ∃ r, mainRun env = RunOutcome.completed r ∧ r.pageContents = [] := by
  constructor
  · simp [analyzePDF, hpdf]
  · simp only [mainRun, convertToPdf, hlib, hrender, Bool.not_true,
      Bool.false_eq_true, if_false, if_neg hp]
    refine ⟨_, rfl, ?_⟩
    simp [createResultMarkdown, buildPageContents, analyzePDF, hpdf]

/-- C1, witness: the amended statement applied to the concrete environment
whose understanding service errors on the whole-document pass. -/
theorem mainRun_pdfAnalysisError_completes_witness :
    analyzePDF envPdfError.pdfSvc envPdfError.pdfParse (("out.pdf").toList) =
      ⟨("out.pdf").toList, none, none,
       some (("Gemini quota exceeded").toList), none⟩ ∧
    ∃ r, mainRun envPdfError = RunOutcome.completed r ∧ r.pageContents = [] :=
  mainRun_pdfAnalysisError_completes envPdfError
    (("Gemini quota exceeded").toList) (("out.pdf").toList) rfl rfl rfl
    (by decide)

/-! ## Media extraction lemmas -/

theorem extractLoop_char (m : List (Str × Nat)) (d : Str) :
    ∀ (es : List Entry) (acc : ExtractedMedia),
      extractLoop m (fun _ => true) d es acc =
        ⟨acc.images ++ (es.filter isImageEntry).map (mediaAssetOf m d),
         acc.videos ++ (es.filter isVideoEntry).map (mediaAssetOf m d)⟩ := by
  intro es
  induction es with
  | nil => intro acc; simp [extractLoop]
  | cons e tl ih =>
    intro acc
    by_cases hm : includesStr e.entryName mediaDirLit = true
    · by_cases himg : lowerStr (extname e.entryName) ∈ imageExtensions
      · have h1 : isImageEntry e = true := by
          simp [isImageEntry, hm, himg]
        have h2 : isVideoEntry e = false := by
          simp [isVideoEntry, himg]
        simp only [extractLoop, hm, if_true, if_pos himg, ih]
        simp [List.filter_cons, h1, h2, mediaAssetOf]
      · by_cases hvid : lowerStr (extname e.entryName) ∈ videoExtensions
        · have h1 : isImageEntry e = false := by
            simp [isImageEntry, himg]
          have h2 : isVideoEntry e = true := by
            simp [isVideoEntry, hm, himg, hvid]
          simp only [extractLoop, hm, if_true, if_neg himg, if_pos hvid, ih]
          simp [List.filter_cons, h1, h2, mediaAssetOf]
        · have h1 : isImageEntry e = false := by
            simp [isImageEntry, himg]
          have h2 : isVideoEntry e = false := by
            simp [isVideoEntry, hvid]
          simp only [extractLoop, hm, if_true, if_neg himg, if_neg hvid, ih]
          simp [List.filter_cons, h1, h2]
    · have hmf : includesStr e.entryName mediaDirLit = false :=
        Bool.not_eq_true _ ▸ hm
      have h1 : isImageEntry e = false := by
        simp [isImageEntry, hmf]
      have h2 : isVideoEntry e = false := by
        simp [isVideoEntry, hmf]
      simp only [extractLoop, hmf, Bool.false_eq_true, if_false, ih]
      simp [List.filter_cons, h1, h2]

/-- C8: the extracted media correspond one-to-one, in order, with the
container entries under the media directory whose extension is in the image
or video allow-list; and an extracted asset whose filename is written by no
slide relationship part keeps the `"Unknown"` owning slide rather than being
dropped. -/
theorem extractMediaFromPPTX_complete (z : Zip) (d : Str) :
    (extractMediaFromPPTX z none (fun _ => true) d).images.map
        MediaFile.name =
      (z.filter isImageEntry).map (fun e => basename e.entryName) ∧
    (extractMediaFromPPTX z none (fun _ => true) d).videos.map
        MediaFile.name =
      (z.filter isVideoEntry).map (fun e => basename e.entryName) ∧
    ∀ a ∈ (extractMediaFromPPTX z none (fun _ => true) d).images ++
        (extractMediaFromPPTX z none (fun _ => true) d).videos,
      (∀ w ∈ mediaWrites z, w.1 ≠ a.name) →
        a.slideNumber = SlideRef.unknown := by
  have hchar := extractLoop_char (buildMediaToSlideMap z) d z ⟨[], []⟩
  have hex : extractMediaFromPPTX z none (fun _ => true) d =
      ⟨(z.filter isImageEntry).map (mediaAssetOf (buildMediaToSlideMap z) d),
       (z.filter isVideoEntry).map (mediaAssetOf (buildMediaToSlideMap z) d)⟩ := by
    simpa [extractMediaFromPPTX] using hchar
  refine ⟨?_, ?_, ?_⟩
  · rw [hex]; simp [mediaAssetOf, List.map_map, Function.comp]
  · rw [hex]; simp [mediaAssetOf, List.map_map, Function.comp]
  · intro a ha hnw
    rw [hex] at ha
    have hform : ∃ e, a = mediaAssetOf (buildMediaToSlideMap z) d e := by
      simp only [List.mem_append, List.mem_map] at ha
      rcases ha with ⟨e, _, rfl⟩ | ⟨e, _, rfl⟩ <;> exact ⟨e, rfl⟩
    obtain ⟨e, rfl⟩ := hform
    have hname : (mediaAssetOf (buildMediaToSlideMap z) d e).name =
        basename e.entryName := rfl
    have hnone : mapLookup (buildMediaToSlideMap z) (basename e.entryName) =
        none := by
      unfold buildMediaToSlideMap
      rw [lookup_foldl_upsert]
      have : (mediaWrites z).reverse.find?
          (fun kv => kv.1 == basename e.entryName) = none := by
        rw [List.find?_eq_none]
        intro w hw
        have hw2 : w ∈ mediaWrites z := List.mem_reverse.mp hw
        have := hnw w hw2
        simpa using this
      rw [this]
      rfl
    show slideRefFor (buildMediaToSlideMap z) (basename e.entryName) =
      SlideRef.unknown
    simp [slideRefFor, hnone]

/-- C8, witness: the completeness statement applied to a container holding a
single unreferenced media image. -/
theorem extractMediaFromPPTX_complete_witness :
    (extractMediaFromPPTX zipOrphanImage none (fun _ => true)
        (("tmp").toList)).images.map MediaFile.name =
      [("orphan.png").toList] ∧
    (mediaAssetOf (buildMediaToSlideMap zipOrphanImage) (("tmp").toList)
        ⟨("ppt/media/orphan.png").toList, ("d").toList⟩).slideNumber =
      SlideRef.unknown := by
  have h := extractMediaFromPPTX_complete zipOrphanImage (("tmp").toList)
  refine ⟨h.1, ?_⟩
  exact h.2.2 _ (by decide) (by decide)

/-- C10: media extraction never reports an error to its caller — for every
container and failure pattern the function resolves with the media
accumulated before the first failure (an all-successful extraction of some
prefix of the entry list), and a slide-map failure yields empty lists. -/
theorem extractMediaFromPPTX_neverRejects (z : Zip) (mapFail : Option Str)
    (ok : Str → Bool) (d : Str) :
    (∃ p, p <+: z ∧
      extractMediaFromPPTX z mapFail ok d =
        extractLoop (buildMediaToSlideMap z) (fun _ => true) d p ⟨[], []⟩) ∧
    (∀ err, mapFail = some err →
      extractMediaFromPPTX z mapFail ok d = ⟨[], []⟩) := by
  constructor
  · cases mapFail with
    | some err =>
      exact ⟨[], List.nil_prefix, by simp [extractMediaFromPPTX, extractLoop]⟩
    | none =>
      have key : ∀ (es : List Entry) (acc : ExtractedMedia),
          ∃ p, p <+: es ∧
            extractLoop (buildMediaToSlideMap z) ok d es acc =
              extractLoop (buildMediaToSlideMap z) (fun _ => true) d p acc := by
        intro es
        induction es with
        | nil => exact fun acc => ⟨[], List.nil_prefix, rfl⟩
        | cons e tl ih =>
          intro acc
          by_cases hm : includesStr e.entryName mediaDirLit = true
          · by_cases himg : lowerStr (extname e.entryName) ∈ imageExtensions
            · by_cases hok :
                ok (joinPath d (basename e.entryName)) = true
              · obtain ⟨p, hpre, heq⟩ := ih
                  ⟨acc.images ++ [mediaAssetOf (buildMediaToSlideMap z) d e],
                   acc.videos⟩
                refine ⟨e :: p, List.cons_prefix_cons.mpr ⟨rfl, hpre⟩, ?_⟩
                simpa [extractLoop, hm, himg, hok, mediaAssetOf] using heq
              · refine ⟨[], List.nil_prefix, ?_⟩
                have hokf : ok (joinPath d (basename e.entryName)) = false :=
                  Bool.not_eq_true _ ▸ hok
                simp only [extractLoop, hm, if_true, if_pos himg, hokf,
                  Bool.false_eq_true, if_false]
            · by_cases hvid : lowerStr (extname e.entryName) ∈ videoExtensions
              · by_cases hok :
                  ok (joinPath d (basename e.entryName)) = true
                · obtain ⟨p, hpre, heq⟩ := ih
                    ⟨acc.images,
                     acc.videos ++ [mediaAssetOf (buildMediaToSlideMap z) d e]⟩
                  refine ⟨e :: p, List.cons_prefix_cons.mpr ⟨rfl, hpre⟩, ?_⟩
                  simpa [extractLoop, hm, himg, hvid, hok, mediaAssetOf]
                    using heq
                · refine ⟨[], List.nil_prefix, ?_⟩
                  have hokf : ok (joinPath d (basename e.entryName)) = false :=
                    Bool.not_eq_true _ ▸ hok
                  simp only [extractLoop, hm, if_true, if_neg himg,
                    if_pos hvid, hokf, Bool.false_eq_true, if_false]
              · obtain ⟨p, hpre, heq⟩ := ih acc
                refine ⟨e :: p, List.cons_prefix_cons.mpr ⟨rfl, hpre⟩, ?_⟩
                simp only [extractLoop, hm, if_true, if_neg himg,
                  if_neg hvid, heq]
          · obtain ⟨p, hpre, heq⟩ := ih acc
            refine ⟨e :: p, List.cons_prefix_cons.mpr ⟨rfl, hpre⟩, ?_⟩
            have hmf : includesStr e.entryName mediaDirLit = false :=
              Bool.not_eq_true _ ▸ hm
            simp only [extractLoop, hmf, Bool.false_eq_true, if_false, heq]
      obtain ⟨p, hpre, heq⟩ := key z ⟨[], []⟩
      exact ⟨p, hpre, by simpa [extractMediaFromPPTX] using heq⟩
  · intro err herr
    subst herr
    rfl

/-- C10, witness: with a write oracle failing on the second image, the result
is the successful extraction of a strict prefix; and a slide-map failure
yields the empty result. -/
theorem extractMediaFromPPTX_neverRejects_witness :
    extractMediaFromPPTX zipTwoImages (some (("boom").toList)) writeOkNotB
      (("tmp").toList) = ⟨[], []⟩ :=
  (extractMediaFromPPTX_neverRejects zipTwoImages (some (("boom").toList))
    writeOkNotB (("tmp").toList)).2 _ rfl

/-! ## Scanner infrastructure for the typography rewriter

The idempotence proof for `changeFontsToArial` rests on a normal-form
argument: after the first replacement every complete `typeface="…"`
attribute carries the value `Arial` (predicate `PArial`), which makes the
three tag-attribute replacements identities, and each whitespace-collapsing
replacement leaves behind (and the later ones preserve) single-space
`<tag typeface="` occurrences (predicate `QTag`), making a second pass of
every rule the identity. -/

theorem scanF_of_le_aux (m : Matcher) (hm : MShrink m) :
    ∀ (n : Nat) (s : Str), s.length ≤ n → ∀ (f1 f2 : Nat),
      s.length ≤ f1 → s.length ≤ f2 → scanF m f1 s = scanF m f2 s := by
  intro n
  induction n with
  | zero =>
    intro s hs f1 f2 _ _
    have : s = [] := List.eq_nil_of_length_eq_zero (by omega)
    subst this
    match f1, f2 with
    | 0, 0 => rfl
    | 0, _ + 1 => rfl
    | _ + 1, 0 => rfl
    | _ + 1, _ + 1 => rfl
  | succ n ih =>
    intro s hs f1 f2 h1 h2
    match s with
    | [] =>
      match f1, f2 with
      | 0, 0 => rfl
      | 0, _ + 1 => rfl
      | _ + 1, 0 => rfl
      | _ + 1, _ + 1 => rfl
    | c :: cs =>
      match f1, f2 with
      | f1 + 1, f2 + 1 =>
        cases hmt : m (c :: cs) with
        | none =>
          simp only [scanF, hmt]
          have hcs : cs.length ≤ n := by
            simp at hs; omega
          rw [ih cs (by omega) f1 f2 (by simp at h1; omega)
            (by simp at h2; omega)]
        | some tr =>
          obtain ⟨t, r, rest⟩ := tr
          simp only [scanF, hmt]
          have hlt := hm _ _ _ _ hmt
          simp at hlt hs h1 h2
          rw [ih rest (by omega) f1 f2 (by omega) (by omega)]

theorem scanF_of_le (m : Matcher) (hm : MShrink m) (s : Str) (f1 f2 : Nat)
    (h1 : s.length ≤ f1) (h2 : s.length ≤ f2) :
    scanF m f1 s = scanF m f2 s :=
  scanF_of_le_aux m hm s.length s (le_refl _) f1 f2 h1 h2

theorem scanStr_cons_some (m : Matcher) (hm : MShrink m) (c : Char) (cs : Str)
    (t r rest : Str) (h : m (c :: cs) = some (t, r, rest)) :
    scanStr m (c :: cs) = r ++ scanStr m rest := by
  have hlt := hm _ _ _ _ h
  simp only [List.length_cons] at hlt
  simp only [scanStr, List.length_cons, scanF, h]
  rw [scanF_of_le m hm rest cs.length rest.length (by omega) (le_refl _)]

theorem scanStr_cons_none (m : Matcher) (_hm : MShrink m) (c : Char) (cs : Str)
    (h : m (c :: cs) = none) :
    scanStr m (c :: cs) = c :: scanStr m cs := by
  simp only [scanStr, List.length_cons, scanF, h]

theorem scan_decomp_aux (m : Matcher) (hm : MShrink m) (hsp : MSplits m)
    (hnil : m [] = none) :
    ∀ (n : Nat) (s : Str), s.length ≤ n →
    ((scanStr m s = s ∧ ∀ x y, s = x ++ y → m y = none) ∨
    ∃ a t r rest, s = a ++ (t ++ rest) ∧ m (t ++ rest) = some (t, r, rest) ∧
      scanStr m s = a ++ (r ++ scanStr m rest) ∧
      (∀ x y, s = x ++ y → x.length < a.length → m y = none)) := by
  intro n
  induction n with
  | zero =>
    intro s hs
    have : s = [] := List.eq_nil_of_length_eq_zero (by omega)
    subst this
    left
    refine ⟨rfl, ?_⟩
    intro x y hxy
    have : y = [] := by
      have := congrArg List.length hxy
      simp at this
      exact List.eq_nil_of_length_eq_zero (by omega)
    rw [this, hnil]
  | succ n ih =>
    intro s hs
    match s with
    | [] =>
      left
      refine ⟨rfl, ?_⟩
      intro x y hxy
      have : y = [] := by
        have := congrArg List.length hxy
        simp at this
        exact List.eq_nil_of_length_eq_zero (by omega)
      rw [this, hnil]
    | c :: cs =>
      cases hmt : m (c :: cs) with
      | some tr =>
        obtain ⟨t, r, rest⟩ := tr
        right
        have hsplit := hsp _ _ _ _ hmt
        refine ⟨[], t, r, rest, by simpa using hsplit, ?_, ?_, ?_⟩
        · rw [← hsplit]; exact hmt
        · simpa using scanStr_cons_some m hm c cs t r rest hmt
        · intro x y _ hx
          simp at hx
      | none =>
        have hcs : cs.length ≤ n := by simp at hs; omega
        rcases ih cs hcs with ⟨hid, hno⟩ | hdec
        · left
          refine ⟨by rw [scanStr_cons_none m hm c cs hmt, hid], ?_⟩
          intro x y hxy
          match x with
          | [] =>
            have hy : y = c :: cs := by simpa using hxy.symm
            rw [hy]; exact hmt
          | x0 :: x1 =>
            have hxy2 : c = x0 ∧ cs = x1 ++ y := by simpa using hxy
            exact hno x1 y hxy2.2
        · obtain ⟨a, t, r, rest, hsplit, hmatch, hscan, hbefore⟩ := hdec
          right
          refine ⟨c :: a, t, r, rest, by simpa using hsplit, hmatch, ?_, ?_⟩
          · rw [scanStr_cons_none m hm c cs hmt, hscan]
            simp
          · intro x y hxy hx
            match x with
            | [] =>
              have hy : y = c :: cs := by simpa using hxy.symm
              rw [hy]; exact hmt
            | x0 :: x1 =>
              have hxy2 : c = x0 ∧ cs = x1 ++ y := by simpa using hxy
              exact hbefore x1 y hxy2.2 (by simp at hx; omega)

theorem scan_decomp (m : Matcher) (hm : MShrink m) (hsp : MSplits m)
    (hnil : m [] = none) (s : Str) :
    (scanStr m s = s ∧ ∀ x y, s = x ++ y → m y = none) ∨
    ∃ a t r rest, s = a ++ (t ++ rest) ∧ m (t ++ rest) = some (t, r, rest) ∧
      scanStr m s = a ++ (r ++ scanStr m rest) ∧
      (∀ x y, s = x ++ y → x.length < a.length → m y = none) :=
  scan_decomp_aux m hm hsp hnil s.length s (le_refl _)

theorem scan_eq_self_aux (m : Matcher) (hm : MShrink m) (hsp : MSplits m)
    (P : Str → Prop) (hdrop : ∀ x y, P (x ++ y) → P y)
    (hrepl : ∀ s t r rest, P s → m s = some (t, r, rest) → r = t) :
    ∀ (n : Nat) (s : Str), s.length ≤ n → P s → scanStr m s = s := by
  intro n
  induction n with
  | zero =>
    intro s hs _
    have : s = [] := List.eq_nil_of_length_eq_zero (by omega)
    subst this
    rfl
  | succ n ih =>
    intro s hs hP
    match s with
    | [] => rfl
    | c :: cs =>
      cases hmt : m (c :: cs) with
      | none =>
        rw [scanStr_cons_none m hm c cs hmt]
        rw [ih cs (by simp at hs; omega) (hdrop [c] cs hP)]
      | some tr =>
        obtain ⟨t, r, rest⟩ := tr
        rw [scanStr_cons_some m hm c cs t r rest hmt]
        have hsplit := hsp _ _ _ _ hmt
        have hPrest : P rest := hdrop t rest (hsplit ▸ hP)
        have hlen := hm _ _ _ _ hmt
        rw [ih rest (by simp at hlen hs; omega) hPrest]
        rw [hrepl _ _ _ _ hP hmt]
        exact hsplit.symm

theorem scan_eq_self (m : Matcher) (hm : MShrink m) (hsp : MSplits m)
    (P : Str → Prop) (hdrop : ∀ x y, P (x ++ y) → P y)
    (hrepl : ∀ s t r rest, P s → m s = some (t, r, rest) → r = t)
    (s : Str) (hP : P s) : scanStr m s = s :=
  scan_eq_self_aux m hm hsp P hdrop hrepl s.length s (le_refl _) hP

/-! ## String-splitting toolkit -/

theorem takeWhile_append_of_all (p : Char → Bool) :
    ∀ (u : Str) (d : Char) (ds : Str), (∀ c ∈ u, p c = true) → p d = false →
      (u ++ d :: ds).takeWhile p = u := by
  intro u
  induction u with
  | nil =>
    intro d ds _ hd
    simp [List.takeWhile, hd]
  | cons c u ih =>
    intro d ds hall hd
    have hc : p c = true := hall c (List.mem_cons_self c u)
    simp only [List.cons_append, List.takeWhile, hc]
    exact congrArg (c :: ·) (ih d ds
      (fun x hx => hall x (List.mem_cons_of_mem c hx)) hd)

theorem takeWhile_lt_split (p : Char → Bool) :
    ∀ (l : Str), (l.takeWhile p).length < l.length →
      ∃ d ds, p d = false ∧ l = l.takeWhile p ++ d :: ds ∧
        l.drop ((l.takeWhile p).length + 1) = ds := by
  intro l
  induction l with
  | nil => intro h; simp at h
  | cons c cs ih =>
    intro h
    cases hp : p c with
    | false =>
      refine ⟨c, cs, hp, ?_, ?_⟩ <;> simp [List.takeWhile, hp]
    | true =>
      simp only [List.takeWhile, hp] at h ⊢
      obtain ⟨d, ds, hd, heq, hdrop⟩ := ih (by simpa using h)
      exact ⟨d, ds, hd, by simpa using heq, by simpa using hdrop⟩

theorem isPrefixOf_split (l s : Str) (h : l.isPrefixOf s = true) :
    s = l ++ s.drop l.length := by
  have hpre : l <+: s := List.isPrefixOf_iff_prefix.mp h
  obtain ⟨u, hu⟩ := hpre
  rw [← hu, List.drop_left]

theorem quote_split_unique :
    ∀ (x y w z : Str), x ++ '"' :: y = w ++ '"' :: z → ('"' : Char) ∉ x →
      ('"' : Char) ∉ w → x = w ∧ y = z := by
  intro x
  induction x with
  | nil =>
    intro y w z heq _ hw
    match w with
    | [] => simpa using heq
    | w0 :: w1 =>
      exfalso
      have hh : '"' = w0 ∧ y = w1 ++ '"' :: z := by simpa using heq
      exact hw (hh.1 ▸ List.mem_cons_self w0 w1)
  | cons x0 x1 ih =>
    intro y w z heq hx hw
    match w with
    | [] =>
      exfalso
      have hh : x0 = '"' ∧ x1 ++ '"' :: y = z := by simpa using heq
      exact hx (hh.1 ▸ List.mem_cons_self x0 x1)
    | w0 :: w1 =>
      have h0 : x0 = w0 ∧ x1 ++ '"' :: y = w1 ++ '"' :: z := by simpa using heq
      obtain ⟨h1, h2⟩ := ih y w1 z h0.2 (fun hc => hx (List.mem_cons_of_mem _ hc))
        (fun hc => hw (List.mem_cons_of_mem _ hc))
      exact ⟨by rw [h0.1, h1], h2⟩

theorem mem_of_mem_takeWhile (p : Char → Bool) (l : Str) (c : Char)
    (h : c ∈ l.takeWhile p) : p c = true :=
  List.mem_takeWhile_imp h

/-! ## Matcher characterizations -/

theorem matchTypeface_eq_some (s t r rest : Str)
    (h : matchTypeface s = some (t, r, rest)) :
    ∃ v, (('"' : Char) ∉ v) ∧ t = litTypeface ++ v ++ ['"'] ∧
      r = litTypeface ++ arial ++ ['"'] ∧
      s = litTypeface ++ v ++ '"' :: rest := by
  simp only [matchTypeface] at h
  split at h
  case isFalse => exact absurd h (by simp)
  case isTrue hpre =>
    split at h
    case isFalse => exact absurd h (by simp)
    case isTrue hlen =>
      have hs := isPrefixOf_split litTypeface s hpre
      obtain ⟨ht, hr, hrest⟩ : t =
          litTypeface ++
            (s.drop litTypeface.length).takeWhile (fun c => decide (c ≠ '"')) ++
            ['"'] ∧
          r = litTypeface ++ arial ++ ['"'] ∧
          (s.drop litTypeface.length).drop
            (((s.drop litTypeface.length).takeWhile
              (fun c => decide (c ≠ '"'))).length + 1) = rest := by
        simp only [Option.some.injEq, Prod.mk.injEq] at h
        exact ⟨h.1.symm, h.2.1.symm, h.2.2⟩
      set rest0 := s.drop litTypeface.length with hrest0
      set v := rest0.takeWhile (fun c => decide (c ≠ '"')) with hv
      obtain ⟨d, ds, hd, hsplit, hdrop⟩ := takeWhile_lt_split _ rest0 hlen
      have hdq : d = '"' := by simpa using hd
      have hvq : ('"' : Char) ∉ v := by
        intro hc
        have := mem_of_mem_takeWhile _ rest0 '"' (hv ▸ hc)
        simp at this
      refine ⟨v, hvq, ht, hr, ?_⟩
      rw [← hv] at hsplit hdrop
      have hres : ds = rest := hdrop.symm.trans hrest
      calc s = litTypeface ++ rest0 := hs
        _ = litTypeface ++ (v ++ d :: ds) := by rw [← hsplit]
        _ = litTypeface ++ v ++ '"' :: rest := by rw [hdq, hres]; simp

theorem matchTypeface_complete (v b : Str) (hv : ('"' : Char) ∉ v) :
    matchTypeface (litTypeface ++ v ++ '"' :: b) =
      some (litTypeface ++ v ++ ['"'], litTypeface ++ arial ++ ['"'], b) := by
  have hpre : litTypeface.isPrefixOf (litTypeface ++ v ++ '"' :: b) = true := by
    rw [List.isPrefixOf_iff_prefix]
    exact ⟨v ++ '"' :: b, by simp⟩
  have hdropq : (litTypeface ++ v ++ '"' :: b).drop litTypeface.length =
      v ++ '"' :: b := by
    rw [List.append_assoc, List.drop_left]
  have htw : (v ++ '"' :: b).takeWhile (fun c => decide (c ≠ '"')) = v := by
    apply takeWhile_append_of_all
    · intro c hc
      simp only [decide_eq_true_eq]
      intro hcq
      exact hv (hcq ▸ hc)
    · simp
  have hb : (v ++ '"' :: b).drop (v.length + 1) = b := by
    have h1 : (v ++ '"' :: b).drop v.length = '"' :: b := List.drop_left v _
    have h2 : (v ++ '"' :: b).drop (v.length + 1) =
        ((v ++ '"' :: b).drop v.length).drop 1 := by
      rw [List.drop_drop]
    rw [h2, h1]
    rfl
  have hlen : v.length < (v ++ '"' :: b).length := by
    simp only [List.length_append, List.length_cons]
    omega
  simp only [matchTypeface, hpre, if_true, hdropq, htw, hb, hlen, ite_true]

theorem matchTypeface_shrink : MShrink matchTypeface := by
  intro s t r rest h
  obtain ⟨v, _, _, _, hs⟩ := matchTypeface_eq_some s t r rest h
  rw [hs]
  simp [litTypeface]
  omega

theorem matchTypeface_splits : MSplits matchTypeface := by
  intro s t r rest h
  obtain ⟨v, _, ht, _, hs⟩ := matchTypeface_eq_some s t r rest h
  rw [hs, ht]
  simp

theorem matchTypeface_nil : matchTypeface [] = none := by
  decide

theorem prefix_drop_split (p l : Str) (h : p <+: l) :
    l = p ++ l.drop p.length := by
  obtain ⟨u, hu⟩ := h
  rw [← hu, List.drop_left]

theorem matchTagWs_eq_some (tg s t r rest : Str)
    (h : matchTagWs tg s = some (t, r, rest)) :
    ∃ w v, w ≠ [] ∧ (∀ c ∈ w, isJsWs c = true) ∧ (('"' : Char) ∉ v) ∧
      t = tg ++ w ++ litTypeface ++ v ++ ['"'] ∧
      r = tg ++ [' '] ++ litTypeface ++ arial ++ ['"'] ∧
      s = tg ++ w ++ litTypeface ++ v ++ '"' :: rest := by
  simp only [matchTagWs] at h
  split at h
  case isFalse => exact absurd h (by simp)
  case isTrue hpre =>
    split at h
    case isTrue => exact absurd h (by simp)
    case isFalse hwne =>
      split at h
      case isFalse => exact absurd h (by simp)
      case isTrue hpre2 =>
        split at h
        case isFalse => exact absurd h (by simp)
        case isTrue hlen =>
          set rest0 := s.drop tg.length with hrest0
          set w := rest0.takeWhile isJsWs with hw
          set rest2 := rest0.drop w.length with hrest2
          set rest3 := rest2.drop litTypeface.length with hrest3
          set v := rest3.takeWhile (fun c => decide (c ≠ '"')) with hv
          obtain ⟨ht, hr, hrest⟩ : t = tg ++ w ++ litTypeface ++ v ++ ['"'] ∧
              r = tg ++ [' '] ++ litTypeface ++ arial ++ ['"'] ∧
              rest3.drop (v.length + 1) = rest := by
            simp only [Option.some.injEq, Prod.mk.injEq] at h
            exact ⟨h.1.symm, h.2.1.symm, h.2.2⟩
          have hs0 : s = tg ++ rest0 := isPrefixOf_split tg s hpre
          have h01 : rest0 = w ++ rest2 :=
            prefix_drop_split w rest0 (hw ▸ List.takeWhile_prefix _)
          have h12 : rest2 = litTypeface ++ rest3 :=
            isPrefixOf_split litTypeface rest2 hpre2
          obtain ⟨d, ds, hd, hsplit, hdrop⟩ := takeWhile_lt_split _ rest3 hlen
          rw [← hv] at hsplit hdrop
          have hdq : d = '"' := by simpa using hd
          have hres : ds = rest := hdrop.symm.trans hrest
          refine ⟨w, v, hwne, ?_, ?_, ht, hr, ?_⟩
          · intro c hc
            exact mem_of_mem_takeWhile _ rest0 c (hw ▸ hc)
          · intro hc
            have := mem_of_mem_takeWhile _ rest3 '"' (hv ▸ hc)
            simp at this
          · calc s = tg ++ rest0 := hs0
              _ = tg ++ (w ++ (litTypeface ++ rest3)) := by rw [h01, h12]
              _ = tg ++ (w ++ (litTypeface ++ (v ++ d :: ds))) := by
                  rw [← hsplit]
              _ = tg ++ w ++ litTypeface ++ v ++ '"' :: rest := by
                  rw [hdq, hres]; simp

theorem matchTagWs_complete (tg w v b : Str) (hw : w ≠ [])
    (hws : ∀ c ∈ w, isJsWs c = true) (hv : ('"' : Char) ∉ v) :
    matchTagWs tg (tg ++ w ++ litTypeface ++ v ++ '"' :: b) =
      some (tg ++ w ++ litTypeface ++ v ++ ['"'],
            tg ++ [' '] ++ litTypeface ++ arial ++ ['"'], b) := by
  have hshape : tg ++ w ++ litTypeface ++ v ++ '"' :: b =
      tg ++ (w ++ (litTypeface ++ (v ++ '"' :: b))) := by simp
  have hpre : tg.isPrefixOf (tg ++ w ++ litTypeface ++ v ++ '"' :: b) = true := by
    rw [List.isPrefixOf_iff_prefix, hshape]
    exact ⟨_, rfl⟩
  have hdrop0 : (tg ++ w ++ litTypeface ++ v ++ '"' :: b).drop tg.length =
      w ++ (litTypeface ++ (v ++ '"' :: b)) := by
    rw [hshape, List.drop_left]
  have hlit : litTypeface = 't' :: litTypeface.drop 1 := by decide
  have htw : (w ++ (litTypeface ++ (v ++ '"' :: b))).takeWhile isJsWs = w := by
    rw [hlit]
    simp only [List.cons_append]
    exact takeWhile_append_of_all isJsWs w 't' _ hws (by decide)
  have hdrop1 : (w ++ (litTypeface ++ (v ++ '"' :: b))).drop w.length =
      litTypeface ++ (v ++ '"' :: b) := List.drop_left w _
  have hpre2 : litTypeface.isPrefixOf (litTypeface ++ (v ++ '"' :: b)) =
      true := by
    rw [List.isPrefixOf_iff_prefix]
    exact ⟨_, rfl⟩
  have hdrop2 : (litTypeface ++ (v ++ '"' :: b)).drop litTypeface.length =
      v ++ '"' :: b := List.drop_left _ _
  have htwv : (v ++ '"' :: b).takeWhile (fun c => decide (c ≠ '"')) = v := by
    apply takeWhile_append_of_all
    · intro c hc
      simp only [decide_eq_true_eq]
      intro hcq
      exact hv (hcq ▸ hc)
    · simp
  have hb : (v ++ '"' :: b).drop (v.length + 1) = b := by
    have h1 : (v ++ '"' :: b).drop v.length = '"' :: b := List.drop_left v _
    have h2 : (v ++ '"' :: b).drop (v.length + 1) =
        ((v ++ '"' :: b).drop v.length).drop 1 := by
      rw [List.drop_drop]
    rw [h2, h1]
    rfl
  have hlen : v.length < (v ++ '"' :: b).length := by
    simp only [List.length_append, List.length_cons]
    omega
  simp only [matchTagWs, hpre, if_true, hdrop0, htw, hw, hdrop1, hpre2,
    hdrop2, htwv, hb, hlen, ite_true, if_false]

theorem matchTagWs_shrink (tg : Str) : MShrink (matchTagWs tg) := by
  intro s t r rest h
  obtain ⟨w, v, hw, _, _, _, _, hs⟩ := matchTagWs_eq_some tg s t r rest h
  rw [hs]
  simp only [List.length_append, List.length_cons]
  have : w.length ≠ 0 := by simpa using hw
  omega

theorem matchTagWs_splits (tg : Str) : MSplits (matchTagWs tg) := by
  intro s t r rest h
  obtain ⟨w, v, _, _, _, ht, _, hs⟩ := matchTagWs_eq_some tg s t r rest h
  rw [hs, ht]
  simp

theorem matchTagWs_nil (tg : Str) : matchTagWs tg [] = none := by
  simp only [matchTagWs]
  split
  · have : ([] : Str).drop tg.length = [] := by simp
    rw [this]
    simp
  · rfl

theorem attrTryHere_sound (cur v g2 rest : Str)
    (h : attrTryHere cur = some (v, g2, rest)) :
    cur = litTypeface ++ v ++ '"' :: g2 ++ '>' :: rest ∧
      (('"' : Char) ∉ v) := by
  simp only [attrTryHere] at h
  split at h
  case isFalse => exact absurd h (by simp)
  case isTrue hpre =>
    split at h
    case isFalse => exact absurd h (by simp)
    case isTrue hlen =>
      split at h
      case isFalse => exact absurd h (by simp)
      case isTrue hlen2 =>
        set rest3 := cur.drop litTypeface.length with hrest3
        set v0 := rest3.takeWhile (fun c => decide (c ≠ '"')) with hv0
        set afterq := rest3.drop (v0.length + 1) with hafterq
        set g20 := afterq.takeWhile (fun c => decide (c ≠ '>')) with hg20
        obtain ⟨hveq, hg2eq, hresteq⟩ : v0 = v ∧ g20 = g2 ∧
            afterq.drop (g20.length + 1) = rest := by
          simp only [Option.some.injEq, Prod.mk.injEq] at h
          exact ⟨h.1, h.2.1, h.2.2⟩
        have hs0 : cur = litTypeface ++ rest3 :=
          isPrefixOf_split litTypeface cur hpre
        obtain ⟨d, ds, hd, hsplit, hdrop⟩ := takeWhile_lt_split _ rest3 hlen
        rw [← hv0] at hsplit hdrop
        have hdq : d = '"' := by simpa using hd
        have hds : ds = afterq := hdrop.symm.trans hafterq.symm
        obtain ⟨d2, ds2, hd2, hsplit2, hdrop2⟩ :=
          takeWhile_lt_split _ afterq hlen2
        rw [← hg20] at hsplit2 hdrop2
        have hd2q : d2 = '>' := by simpa using hd2
        have hds2 : ds2 = rest := hdrop2.symm.trans hresteq
        have hvq : ('"' : Char) ∉ v := by
          intro hc
          have := mem_of_mem_takeWhile _ rest3 '"' (hv0 ▸ hveq ▸ hc)
          simp at this
        refine ⟨?_, hvq⟩
        calc cur = litTypeface ++ rest3 := hs0
          _ = litTypeface ++ (v0 ++ d :: ds) := by rw [← hsplit]
          _ = litTypeface ++ (v0 ++ d :: (g20 ++ d2 :: ds2)) := by
              rw [hds, hsplit2]
          _ = litTypeface ++ v ++ '"' :: g2 ++ '>' :: rest := by
              rw [hveq, hg2eq, hdq, hd2q, hds2]; simp

theorem attrSearch_sound :
    ∀ (cur acc g1 v g2 rest : Str),
      attrSearch cur acc = some (g1, v, g2, rest) →
      ∃ g1t, g1 = acc.reverse ++ g1t ∧
        cur = g1t ++ litTypeface ++ v ++ '"' :: g2 ++ '>' :: rest ∧
        (('"' : Char) ∉ v) := by
  intro cur
  induction cur with
  | nil =>
    intro acc g1 v g2 rest h
    have hth : attrTryHere [] = none := by decide
    simp only [attrSearch, hth] at h
    exact Option.noConfusion h
  | cons c cs ih =>
    intro acc g1 v g2 rest h
    cases hth : attrTryHere (c :: cs) with
    | some x =>
      obtain ⟨v0, g20, rest0⟩ := x
      simp only [attrSearch] at h
      rw [hth] at h
      simp only [Option.some.injEq, Prod.mk.injEq] at h
      obtain ⟨hcur, hvq⟩ := attrTryHere_sound (c :: cs) v0 g20 rest0 hth
      refine ⟨[], by simpa using h.1.symm, ?_, ?_⟩
      · rw [← h.2.1, ← h.2.2.1, ← h.2.2.2]
        simpa using hcur
      · rw [← h.2.1]; exact hvq
    | none =>
      have hstep : attrSearch (c :: cs) acc
          = if c = '>' then none else attrSearch cs (c :: acc) := by
        simp only [attrSearch]
        rw [hth]
      rw [hstep] at h
      split at h
      next => exact Option.noConfusion h
      next =>
        obtain ⟨g1t, hg1, hcur, hvq⟩ := ih (c :: acc) g1 v g2 rest h
        refine ⟨c :: g1t, ?_, by simpa using hcur, hvq⟩
        rw [hg1]
        simp

theorem matchTagAttr_eq_some (tg s t r rest : Str)
    (h : matchTagAttr tg s = some (t, r, rest)) :
    ∃ g1 v g2, (('"' : Char) ∉ v) ∧
      t = tg ++ g1 ++ litTypeface ++ v ++ ['"'] ++ g2 ++ ['>'] ∧
      r = tg ++ g1 ++ litTypeface ++ arial ++ ['"'] ++ g2 ++ ['>'] ∧
      s = tg ++ g1 ++ litTypeface ++ v ++ '"' :: g2 ++ '>' :: rest := by
  simp only [matchTagAttr] at h
  split at h
  case isFalse => exact absurd h (by simp)
  case isTrue hpre =>
    cases hse : attrSearch (s.drop tg.length) [] with
    | none => rw [hse] at h; exact absurd h (by simp)
    | some x =>
      obtain ⟨g1, v, g2, rest0⟩ := x
      rw [hse] at h
      obtain ⟨g1t, hg1, hcur, hvq⟩ :=
        attrSearch_sound (s.drop tg.length) [] g1 v g2 rest0 hse
      simp only [List.reverse_nil, List.nil_append] at hg1
      subst hg1
      simp only [Option.some.injEq, Prod.mk.injEq] at h
      have ht := h.1.symm
      have hr := h.2.1.symm
      have hrest := h.2.2
      refine ⟨g1, v, g2, hvq, by rw [ht], by rw [hr], ?_⟩
      have hs0 : s = tg ++ s.drop tg.length := isPrefixOf_split tg s hpre
      rw [hs0, hcur, hrest]
      simp

theorem matchTagAttr_shrink (tg : Str) : MShrink (matchTagAttr tg) := by
  intro s t r rest h
  obtain ⟨g1, v, g2, _, _, _, hs⟩ := matchTagAttr_eq_some tg s t r rest h
  rw [hs]
  simp [litTypeface]
  omega

theorem matchTagAttr_splits (tg : Str) : MSplits (matchTagAttr tg) := by
  intro s t r rest h
  obtain ⟨g1, v, g2, _, ht, _, hs⟩ := matchTagAttr_eq_some tg s t r rest h
  rw [hs, ht]
  simp

theorem matchTagAttr_nil (tg : Str) : matchTagAttr tg [] = none := by
  simp only [matchTagAttr]
  split
  · have hd : ([] : Str).drop tg.length = [] := by simp
    rw [hd]
    have hse : attrSearch [] [] = none := by decide
    rw [hse]
  · rfl

/-! ## Occurrence analysis toolkit -/

theorem split_ge (a m A Z : Str) (h : a ++ m = A ++ Z)
    (hl : a.length ≤ A.length) : ∃ B, A = a ++ B ∧ m = B ++ Z := by
  have h1 : a <+: A ++ Z := by rw [← h]; exact List.prefix_append a m
  have h2 : A <+: A ++ Z := List.prefix_append A Z
  have hpa : a <+: A := List.prefix_of_prefix_length_le h1 h2 hl
  obtain ⟨B, hB⟩ := hpa
  refine ⟨B, hB.symm, ?_⟩
  have h' : a ++ m = a ++ (B ++ Z) := by rw [h, ← hB, List.append_assoc]
  exact List.append_cancel_left h'

theorem split_lt (a m A Z : Str) (h : a ++ m = A ++ Z)
    (hl : A.length < a.length) :
    a.drop A.length ≠ [] ∧ Z = a.drop A.length ++ m := by
  have h1 : A <+: a ++ m := by rw [h]; exact List.prefix_append A Z
  have h2 : a <+: a ++ m := List.prefix_append a m
  have hpa : A <+: a := List.prefix_of_prefix_length_le h1 h2 (le_of_lt hl)
  have ha : a = A ++ a.drop A.length := prefix_drop_split A a hpa
  constructor
  · intro hnil
    have := congrArg List.length ha
    simp [hnil] at this
    omega
  · have h' : A ++ (a.drop A.length ++ m) = A ++ Z := by
      rw [← List.append_assoc, ← ha]
      exact h
    exact (List.append_cancel_left h').symm

theorem occ_cases (a ρ T A Z : Str) (h : a ++ (ρ ++ T) = A ++ Z) :
    (A.length < a.length ∧ a.drop A.length ≠ [] ∧
       Z = a.drop A.length ++ (ρ ++ T)) ∨
    (∃ k, k < ρ.length ∧ Z = ρ.drop k ++ T) ∨
    (∃ C, T = C ++ Z) := by
  rcases lt_or_ge A.length a.length with hlt | hge
  · left
    have hs := split_lt a (ρ ++ T) A Z h hlt
    exact ⟨hlt, hs.1, hs.2⟩
  · obtain ⟨B, hB, hm⟩ := split_ge a (ρ ++ T) A Z h hge
    rcases lt_or_ge B.length ρ.length with hlt2 | hge2
    · right; left
      obtain ⟨_, hz⟩ := split_lt ρ T B Z hm hlt2
      exact ⟨B.length, hlt2, hz⟩
    · right; right
      obtain ⟨C, _, hT⟩ := split_ge ρ T B Z hm hge2
      exact ⟨C, hT⟩

theorem prefix_append_cases (l X T : Str) (h : l <+: X ++ T) :
    l <+: X ∨ X <+: l := by
  rcases le_or_lt l.length X.length with hle | hlt
  · exact Or.inl (List.prefix_of_prefix_length_le h (List.prefix_append X T) hle)
  · exact Or.inr
      (List.prefix_of_prefix_length_le (List.prefix_append X T) h (le_of_lt hlt))

theorem first_quote_split (y : Str) (h : ('"' : Char) ∈ y) :
    ∃ V B, y = V ++ '"' :: B ∧ (('"' : Char) ∉ V) := by
  induction y with
  | nil => simp at h
  | cons c cs ih =>
    by_cases hc : c = '"'
    · exact ⟨[], cs, by rw [hc]; rfl, by simp⟩
    · have hcs : ('"' : Char) ∈ cs := by
        rcases List.mem_cons.mp h with h1 | h1
        · exact absurd h1.symm hc
        · exact h1
      obtain ⟨V, B, hVB, hV⟩ := ih hcs
      refine ⟨c :: V, B, by simp [hVB], ?_⟩
      intro hmem
      rcases List.mem_cons.mp hmem with h1 | h1
      · exact hc h1.symm
      · exact hV h1

theorem mem_drop_of_le (x z : Str) (c : Char) (n : Nat) (hn : n ≤ x.length) :
    c ∈ (x ++ c :: z).drop n := by
  rw [List.drop_append_of_le_length hn]
  simp

theorem head_drop_mem (l : Str) (n : Nat) (c : Char) (rest : Str)
    (h : l.drop n = c :: rest) : c ∈ l :=
  List.drop_subset n l (h ▸ List.mem_cons_self c rest)

theorem lit_prefix_transfer (l u X Y : Str) (h : l <+: u ++ (l ++ X)) :
    l <+: u ++ (l ++ Y) := by
  rcases le_or_lt l.length u.length with hle | hlt
  · have hlu : l <+: u :=
      List.prefix_of_prefix_length_le h (List.prefix_append u _) hle
    exact hlu.trans (List.prefix_append u _)
  · have hul : u <+: l :=
      List.prefix_of_prefix_length_le (List.prefix_append u _) h (le_of_lt hlt)
    have hl : l = u ++ l.drop u.length := prefix_drop_split u l hul
    have hd : l.drop u.length <+: l ++ X := by
      have h2 : u ++ l.drop u.length <+: u ++ (l ++ X) := by rw [← hl]; exact h
      exact (List.prefix_append_right_inj u).mp h2
    have hdl : l.drop u.length <+: l :=
      List.prefix_of_prefix_length_le hd (List.prefix_append l X)
        (by simp)
    have h3 : u ++ l.drop u.length <+: u ++ (l ++ Y) :=
      (List.prefix_append_right_inj u).mpr (hdl.trans (List.prefix_append l Y))
    rw [← hl] at h3
    exact h3

theorem PArial_drop (x y : Str) (h : PArial (x ++ y)) : PArial y := by
  intro A V B hy hV
  exact h (x ++ A) V B (by rw [hy]; simp) hV

theorem QTag_drop (tg x y : Str) (h : QTag tg (x ++ y)) : QTag tg y := by
  intro A w V B hy hw hws hV
  exact h (x ++ A) w V B (by rw [hy]; simp) hw hws hV

theorem matchTypeface_none (s : Str) (hnone : matchTypeface s = none)
    (hpre : litTypeface.isPrefixOf s = true) :
    ('"' : Char) ∉ s.drop litTypeface.length := by
  intro hq
  simp only [matchTypeface, hpre, if_true] at hnone
  split at hnone
  case isTrue => exact absurd hnone (by simp)
  case isFalse hlen =>
    have hple : ((s.drop litTypeface.length).takeWhile
        (fun c => decide (c ≠ '"'))).length ≤
        (s.drop litTypeface.length).length :=
      (List.takeWhile_prefix _).length_le
    have heq : (s.drop litTypeface.length).takeWhile
        (fun c => decide (c ≠ '"')) = s.drop litTypeface.length :=
      (List.takeWhile_prefix _).eq_of_length (by omega)
    have hp := mem_of_mem_takeWhile (fun c => decide (c ≠ '"'))
      (s.drop litTypeface.length) '"' (by rw [heq]; exact hq)
    simp at hp

/-! ## The `PArial` normal form established by the first replacement -/

theorem scan_typeface_arial_aux :
    ∀ (n : Nat) (s : Str), s.length ≤ n → PArial (scanStr matchTypeface s) := by
  intro n
  induction n with
  | zero =>
    intro s hs
    have hs0 : s = [] := List.eq_nil_of_length_eq_zero (by omega)
    subst hs0
    intro A V B hAB _
    exfalso
    have h0 : scanStr matchTypeface ([] : Str) = [] := rfl
    rw [h0] at hAB
    have := congrArg List.length hAB
    simp [litTypeface] at this
    omega
  | succ n ih =>
    intro s hs
    rcases scan_decomp matchTypeface matchTypeface_shrink matchTypeface_splits
        matchTypeface_nil s with ⟨hid, hno⟩ |
        ⟨a, t, r, rest, hsplit, hmatch, hscan, hbefore⟩
    · rw [hid]
      intro A V B hAB hV
      exfalso
      have hm := hno A (litTypeface ++ (V ++ '"' :: B)) hAB
      have hsome := matchTypeface_complete V B hV
      rw [show litTypeface ++ (V ++ '"' :: B) =
          litTypeface ++ V ++ '"' :: B by simp] at hm
      rw [hsome] at hm
      exact Option.noConfusion hm
    · obtain ⟨v0, hv0q, ht, hr, hs0⟩ := matchTypeface_eq_some _ _ _ _ hmatch
      have hTlen : rest.length ≤ n := by
        have h1 := matchTypeface_shrink _ _ _ _ hmatch
        have h2 := congrArg List.length hsplit
        simp at h1 h2
        omega
      have hPT := ih rest hTlen
      rw [hscan]
      intro A V B hAB hV
      rcases occ_cases a r (scanStr matchTypeface rest) A _ hAB with
        ⟨hlt, hune, hZ⟩ | ⟨k, hk, hZ⟩ | ⟨C, hZ⟩
      · exfalso
        have hru : a.drop A.length ++ (r ++ scanStr matchTypeface rest) =
            a.drop A.length ++
              (litTypeface ++ (arial ++ '"' :: scanStr matchTypeface rest)) := by
          rw [hr]; simp
        have hlpre : litTypeface <+:
            a.drop A.length ++
              (litTypeface ++ (arial ++ '"' :: scanStr matchTypeface rest)) := by
          rw [← hru]
          exact ⟨V ++ '"' :: B, hZ⟩
        have htu : a.drop A.length ++ (t ++ rest) =
            a.drop A.length ++ (litTypeface ++ (v0 ++ '"' :: rest)) := by
          rw [ht]; simp
        have hlpre2 : litTypeface <+: a.drop A.length ++ (t ++ rest) := by
          rw [htu]
          exact lit_prefix_transfer litTypeface (a.drop A.length) _ _ hlpre
        have hxy : s = a.take A.length ++ (a.drop A.length ++ (t ++ rest)) := by
          calc s = a ++ (t ++ rest) := hsplit
            _ = (a.take A.length ++ a.drop A.length) ++ (t ++ rest) := by
                rw [List.take_append_drop]
            _ = a.take A.length ++ (a.drop A.length ++ (t ++ rest)) := by
                rw [List.append_assoc]
        have hxlen : (a.take A.length).length < a.length := by
          simp [List.length_take]
          omega
        have hnone := hbefore (a.take A.length) (a.drop A.length ++ (t ++ rest))
          hxy hxlen
        have hpreB : litTypeface.isPrefixOf (a.drop A.length ++ (t ++ rest)) =
            true := List.isPrefixOf_iff_prefix.mpr hlpre2
        have hnq := matchTypeface_none _ hnone hpreB
        apply hnq
        have hx : a.drop A.length ++ (t ++ rest) =
            (a.drop A.length ++ litTypeface ++ v0) ++ '"' :: rest := by
          rw [ht]; simp
        rw [hx]
        apply mem_drop_of_le
        simp
        omega
      · have h16 : r.length = 16 := by rw [hr]; decide
        by_cases hk0 : k = 0
        · subst hk0
          have hZ' : litTypeface ++ (V ++ '"' :: B) =
              litTypeface ++ (arial ++ '"' :: scanStr matchTypeface rest) := by
            rw [hZ, hr]; simp
          have hc := List.append_cancel_left hZ'
          exact (quote_split_unique V B arial _ hc hV (by decide)).1
        · exfalso
          have hfact : ∀ k, k < 16 → k ≠ 0 →
              ¬ (litTypeface.isPrefixOf
                  ((litTypeface ++ arial ++ ['"']).drop k) = true) ∧
              ¬ (((litTypeface ++ arial ++ ['"']).drop k).isPrefixOf
                  litTypeface = true) := by decide
          have hpre1 : litTypeface <+: r.drop k ++ scanStr matchTypeface rest :=
            ⟨V ++ '"' :: B, hZ⟩
          rcases prefix_append_cases _ _ _ hpre1 with hc | hc
          · rw [hr] at hc
            exact (hfact k (by omega) hk0).1 (List.isPrefixOf_iff_prefix.mpr hc)
          · rw [hr] at hc
            exact (hfact k (by omega) hk0).2 (List.isPrefixOf_iff_prefix.mpr hc)
      · exact hPT C V B hZ hV

theorem PArial_scan_typeface (s : Str) : PArial (scanStr matchTypeface s) :=
  scan_typeface_arial_aux s.length s (le_refl _)

theorem cancel_prefix_eq (u d X Y : Str) (h : (u ++ d) ++ X = u ++ Y) :
    d ++ X = Y := by
  rw [List.append_assoc] at h
  exact List.append_cancel_left h

theorem cons_eq_head (a b : Char) (X Y : Str) (h : a :: X = b :: Y) : a = b :=
  (List.cons.injEq a X b Y ▸ h).1

theorem cons_eq_tail (a b : Char) (X Y : Str) (h : a :: X = b :: Y) : X = Y :=
  (List.cons.injEq a X b Y ▸ h).2

theorem qtag_junction (tg tg' w V B u M' : Str) (htg : tg = '<' :: tg')
    (hlt1 : ('<' : Char) ∉ tg') (hw : w ≠ [])
    (hws : ∀ c ∈ w, isJsWs c = true) (hne : u ≠ [])
    (heq : tg ++ (w ++ (litTypeface ++ (V ++ '"' :: B))) = u ++ ('<' :: M')) :
    tg.length + w.length + litTypeface.length ≤ u.length := by
  by_contra hcon
  push_neg at hcon
  rcases le_or_lt u.length tg.length with h1 | h1
  · obtain ⟨D, hD, hrest⟩ := split_ge u ('<' :: M') tg
      (w ++ (litTypeface ++ (V ++ '"' :: B))) heq.symm h1
    match D, hD, hrest with
    | [], hD, hrest =>
      match w, hw with
      | c :: w2, _ =>
        have hc : '<' = c := by
          have h2 : '<' :: M' = c :: (w2 ++ (litTypeface ++ (V ++ '"' :: B))) := by
            rw [hrest]; simp
          exact (List.cons.injEq _ _ _ _ ▸ h2).1
        have := hws c (List.mem_cons_self c w2)
        rw [← hc] at this
        exact absurd this (by decide)
    | d :: D2, hD, hrest =>
      have hd : '<' = d := by
        have h2 : '<' :: M' = d :: (D2 ++ (w ++ (litTypeface ++ (V ++ '"' :: B)))) := by
          rw [hrest]; simp
        exact (List.cons.injEq _ _ _ _ ▸ h2).1
      match u, hne with
      | u0 :: u1, _ =>
        have htg2 : '<' :: tg' = u0 :: (u1 ++ d :: D2) := by
          rw [← htg, hD]; simp
        have : tg' = u1 ++ d :: D2 := (List.cons.injEq _ _ _ _ ▸ htg2).2
        apply hlt1
        rw [this, hd]
        simp
  rcases le_or_lt u.length (tg.length + w.length) with h2 | h2
  · obtain ⟨u2, hu2, hw2eq⟩ := split_ge tg (w ++ (litTypeface ++ (V ++ '"' :: B)))
      u ('<' :: M') heq h1.le
    have hu2len : u2.length ≤ w.length := by
      have := congrArg List.length hu2
      simp at this
      omega
    obtain ⟨w2, hwid, hrest2⟩ := split_ge u2 ('<' :: M') w
      (litTypeface ++ (V ++ '"' :: B)) hw2eq.symm hu2len
    match w2, hwid, hrest2 with
    | [], hwid, hrest2 =>
      have h3 : '<' :: M' = 't' :: (("ypeface=\"").toList ++ (V ++ '"' :: B)) := by
        rw [hrest2, show litTypeface = 't' :: (("ypeface=\"").toList) from by decide]
        simp
      exact absurd (cons_eq_head _ _ _ _ h3) (by decide)
    | d :: w3, hwid, hrest2 =>
      have hd : '<' = d := by
        have h3 : '<' :: M' = d :: (w3 ++ (litTypeface ++ (V ++ '"' :: B))) := by
          rw [hrest2]; simp
        exact (List.cons.injEq _ _ _ _ ▸ h3).1
      have hdm : d ∈ w := by rw [hwid]; simp
      have := hws d hdm
      rw [← hd] at this
      exact absurd this (by decide)
  · have heq2 : (tg ++ w) ++ (litTypeface ++ (V ++ '"' :: B)) = u ++ ('<' :: M') := by
      rw [← heq]; simp
    obtain ⟨u3, hu3, hlit3⟩ := split_ge (tg ++ w) (litTypeface ++ (V ++ '"' :: B))
      u ('<' :: M') heq2 (by simp; omega)
    have hu3len : u3.length < litTypeface.length := by
      have := congrArg List.length hu3
      simp at this
      omega
    obtain ⟨l3, hl3, hrest3⟩ := split_ge u3 ('<' :: M') litTypeface
      (V ++ '"' :: B) hlit3.symm hu3len.le
    match l3, hl3, hrest3 with
    | [], hl3, _ =>
      have := congrArg List.length hl3
      simp at this
      omega
    | d :: l4, hl3, hrest3 =>
      have hd : '<' = d := by
        have h3 : '<' :: M' = d :: (l4 ++ (V ++ '"' :: B)) := by
          rw [hrest3]; simp
        exact (List.cons.injEq _ _ _ _ ▸ h3).1
      have hdm : d ∈ litTypeface := by rw [hl3]; simp
      rw [← hd] at hdm
      exact absurd hdm (by decide)

theorem scan_typeface_id (s : Str) (h : PArial s) :
    scanStr matchTypeface s = s := by
  apply scan_eq_self matchTypeface matchTypeface_shrink matchTypeface_splits
    PArial
  · intro x y hxy
    exact PArial_drop x y hxy
  · intro s' t r rest hP hm
    obtain ⟨v, hvq, ht, hr, hs⟩ := matchTypeface_eq_some s' t r rest hm
    have hva : v = arial := hP [] v rest (by rw [hs]; simp) hvq
    rw [ht, hr, hva]
  · exact h

/-! ## `QTag` is established by the matching whitespace-collapsing
replacement and preserved by the other two -/

theorem scan_tagws_qtag_aux (tg tg' : Str) (htg : tg = '<' :: tg')
    (hlt1 : ('<' : Char) ∉ tg')
    (hfact : ∀ k, k < tg.length + 17 → k ≠ 0 →
      ¬ (tg.isPrefixOf ((wsRepl tg).drop k) = true) ∧
      ¬ (((wsRepl tg).drop k).isPrefixOf tg = true)) :
    ∀ (n : Nat) (s : Str), s.length ≤ n →
      QTag tg (scanStr (matchTagWs tg) s) := by
  intro n
  induction n with
  | zero =>
    intro s hs
    have hs0 : s = [] := List.eq_nil_of_length_eq_zero (by omega)
    subst hs0
    intro A w V B hAB _ _ _
    exfalso
    have h0 : scanStr (matchTagWs tg) ([] : Str) = [] := rfl
    rw [h0] at hAB
    have := congrArg List.length hAB
    simp [litTypeface] at this
    omega
  | succ n ih =>
    intro s hs
    rcases scan_decomp (matchTagWs tg) (matchTagWs_shrink tg) (matchTagWs_splits tg)
        (matchTagWs_nil tg) s with ⟨hid, hno⟩ |
        ⟨a, t, r, rest, hsplit, hmatch, hscan, hbefore⟩
    · rw [hid]
      intro A w V B hAB hw hws hV
      exfalso
      have hy := hno A _ hAB
      rw [show tg ++ (w ++ (litTypeface ++ (V ++ '"' :: B))) =
          tg ++ w ++ litTypeface ++ V ++ '"' :: B from by simp] at hy
      rw [matchTagWs_complete tg w V B hw hws hV] at hy
      exact Option.noConfusion hy
    · obtain ⟨w0, v0, hw0, hws0, hv0q, ht, hr, hs0⟩ :=
        matchTagWs_eq_some tg _ _ _ _ hmatch
      have hrw : r = wsRepl tg := by rw [hr]; simp [wsRepl]
      have hTlen : rest.length ≤ n := by
        have h1 := matchTagWs_shrink tg _ _ _ _ hmatch
        have h2 := congrArg List.length hsplit
        simp at h1 h2
        omega
      have hQT := ih rest hTlen
      rw [hscan]
      intro A w V B hAB hw hws hV
      rcases occ_cases a r (scanStr (matchTagWs tg) rest) A _ hAB with
        ⟨hlt, hune, hZ⟩ | ⟨k, hk, hZ⟩ | ⟨C, hZ⟩
      · exfalso
        have hM : r ++ scanStr (matchTagWs tg) rest = '<' ::
            ((tg' ++ ([' '] ++ (litTypeface ++ (arial ++ ['"'])))) ++
              scanStr (matchTagWs tg) rest) := by
          rw [hrw, wsRepl, htg]
          simp
        have hZM := hZ
        rw [hM] at hZM
        have hbound := qtag_junction tg tg' w V B (a.drop A.length) _
          htg hlt1 hw hws hune hZM
        have hpple : (tg ++ (w ++ litTypeface)).length ≤
            (a.drop A.length).length := by
          simp only [List.length_append]
          omega
        have hin : tg ++ (w ++ litTypeface) <+:
            a.drop A.length ++ (r ++ scanStr (matchTagWs tg) rest) := by
          refine ⟨V ++ '"' :: B, ?_⟩
          rw [← hZ]
          simp
        have hppre : tg ++ (w ++ litTypeface) <+: a.drop A.length :=
          List.prefix_of_prefix_length_le hin (List.prefix_append _ _) hpple
        obtain ⟨u2, hueq⟩ := hppre
        have hqin : ('"' : Char) ∈ u2 ++ (t ++ rest) := by
          have hqt : ('"' : Char) ∈ t := by rw [ht]; simp
          simp [hqt]
        obtain ⟨Vs, Zs, hVZ, hVsq⟩ := first_quote_split _ hqin
        have hseq : s = a.take A.length ++ (a.drop A.length ++ (t ++ rest)) := by
          calc s = a ++ (t ++ rest) := hsplit
            _ = (a.take A.length ++ a.drop A.length) ++ (t ++ rest) := by
                rw [List.take_append_drop]
            _ = a.take A.length ++ (a.drop A.length ++ (t ++ rest)) := by
                rw [List.append_assoc]
        have hxlen : (a.take A.length).length < a.length := by
          simp [List.length_take]
          omega
        have hnone := hbefore (a.take A.length) (a.drop A.length ++ (t ++ rest))
          hseq hxlen
        have hshape : a.drop A.length ++ (t ++ rest) =
            tg ++ w ++ litTypeface ++ Vs ++ '"' :: Zs := by
          have h1 : a.drop A.length ++ (t ++ rest) =
              tg ++ w ++ litTypeface ++ (u2 ++ (t ++ rest)) := by
            rw [← hueq]
            simp
          rw [h1, hVZ]
          simp
        rw [hshape, matchTagWs_complete tg w Vs Zs hw hws hVsq] at hnone
        exact Option.noConfusion hnone
      · have hklen : k < tg.length + 17 := by
          have hrl : r.length = tg.length + 17 := by
            rw [hrw]
            simp [wsRepl, litTypeface, arial]
          omega
        by_cases hk0 : k = 0
        · subst hk0
          have hZ' : tg ++ (w ++ (litTypeface ++ (V ++ '"' :: B))) =
              tg ++ ([' '] ++ (litTypeface ++
                (arial ++ '"' :: scanStr (matchTagWs tg) rest))) := by
            rw [hZ]
            simp [hrw, wsRepl]
          have hc := List.append_cancel_left hZ'
          match w, hw with
          | c :: w2, _ =>
            have hc' : c :: (w2 ++ (litTypeface ++ (V ++ '"' :: B))) =
                ' ' :: (litTypeface ++
                  (arial ++ '"' :: scanStr (matchTagWs tg) rest)) := by
              simpa using hc
            have hch : c = ' ' := cons_eq_head _ _ _ _ hc'
            have htail := cons_eq_tail _ _ _ _ hc'
            match w2 with
            | [] => rw [hch]
            | d :: w3 =>
              exfalso
              have h3 : d :: (w3 ++ (litTypeface ++ (V ++ '"' :: B))) =
                  't' :: (("ypeface=\"").toList ++
                    (arial ++ '"' :: scanStr (matchTagWs tg) rest)) := by
                have h4 := htail
                rw [show litTypeface = 't' :: (("ypeface=\"").toList) from
                  by decide] at h4
                simpa using h4
              have hd : d = 't' := cons_eq_head _ _ _ _ h3
              have hmem := hws d (by simp)
              rw [hd] at hmem
              exact absurd hmem (by decide)
        · exfalso
          have hpre1 : tg <+: r.drop k ++ scanStr (matchTagWs tg) rest :=
            ⟨w ++ (litTypeface ++ (V ++ '"' :: B)), hZ⟩
          rw [hrw] at hpre1
          rcases prefix_append_cases _ _ _ hpre1 with hc | hc
          · exact (hfact k hklen hk0).1 (List.isPrefixOf_iff_prefix.mpr hc)
          · exact (hfact k hklen hk0).2 (List.isPrefixOf_iff_prefix.mpr hc)
      · exact hQT C w V B hZ hw hws hV

theorem scan_tagws_qtag_other_aux (tgA tgA' tgB tgB' : Str)
    (htgA : tgA = '<' :: tgA') (htgB : tgB = '<' :: tgB')
    (hlt1 : ('<' : Char) ∉ tgA')
    (hfact : ∀ k, k < tgB.length + 17 →
      ¬ (tgA.isPrefixOf ((wsRepl tgB).drop k) = true) ∧
      ¬ (((wsRepl tgB).drop k).isPrefixOf tgA = true)) :
    ∀ (n : Nat) (s : Str), s.length ≤ n → QTag tgA s →
      QTag tgA (scanStr (matchTagWs tgB) s) := by
  intro n
  induction n with
  | zero =>
    intro s hs _
    have hs0 : s = [] := List.eq_nil_of_length_eq_zero (by omega)
    subst hs0
    intro A w V B hAB _ _ _
    exfalso
    have h0 : scanStr (matchTagWs tgB) ([] : Str) = [] := rfl
    rw [h0] at hAB
    have := congrArg List.length hAB
    simp [litTypeface] at this
    omega
  | succ n ih =>
    intro s hs hQ
    rcases scan_decomp (matchTagWs tgB) (matchTagWs_shrink tgB)
        (matchTagWs_splits tgB) (matchTagWs_nil tgB) s with ⟨hid, _⟩ |
        ⟨a, t, r, rest, hsplit, hmatch, hscan, hbefore⟩
    · rw [hid]
      exact hQ
    · obtain ⟨w0, v0, hw0, hws0, hv0q, ht, hr, hs0⟩ :=
        matchTagWs_eq_some tgB _ _ _ _ hmatch
      have hrw : r = wsRepl tgB := by rw [hr]; simp [wsRepl]
      have hTlen : rest.length ≤ n := by
        have h1 := matchTagWs_shrink tgB _ _ _ _ hmatch
        have h2 := congrArg List.length hsplit
        simp at h1 h2
        omega
      have hQrest : QTag tgA rest := by
        have h1 : QTag tgA (t ++ rest) := QTag_drop tgA a _ (hsplit ▸ hQ)
        exact QTag_drop tgA t rest h1
      have hQT := ih rest hTlen hQrest
      rw [hscan]
      intro A w V B hAB hw hws hV
      rcases occ_cases a r (scanStr (matchTagWs tgB) rest) A _ hAB with
        ⟨hlt, hune, hZ⟩ | ⟨k, hk, hZ⟩ | ⟨C, hZ⟩
      · have hM : r ++ scanStr (matchTagWs tgB) rest = '<' ::
            ((tgB' ++ ([' '] ++ (litTypeface ++ (arial ++ ['"'])))) ++
              scanStr (matchTagWs tgB) rest) := by
          rw [hrw, wsRepl, htgB]
          simp
        have hZM := hZ
        rw [hM] at hZM
        have hbound := qtag_junction tgA tgA' w V B (a.drop A.length) _
          htgA hlt1 hw hws hune hZM
        have hpple : (tgA ++ (w ++ litTypeface)).length ≤
            (a.drop A.length).length := by
          simp only [List.length_append]
          omega
        have hin : tgA ++ (w ++ litTypeface) <+:
            a.drop A.length ++ (r ++ scanStr (matchTagWs tgB) rest) := by
          refine ⟨V ++ '"' :: B, ?_⟩
          rw [← hZ]
          simp
        have hppre : tgA ++ (w ++ litTypeface) <+: a.drop A.length :=
          List.prefix_of_prefix_length_le hin (List.prefix_append _ _) hpple
        obtain ⟨u2, hueq⟩ := hppre
        have hqin : ('"' : Char) ∈ u2 ++ (t ++ rest) := by
          have hqt : ('"' : Char) ∈ t := by rw [ht]; simp
          simp [hqt]
        obtain ⟨Vs, Zs, hVZ, hVsq⟩ := first_quote_split _ hqin
        have hseq : s = a.take A.length ++
            (tgA ++ (w ++ (litTypeface ++ (Vs ++ '"' :: Zs)))) := by
          calc s = a ++ (t ++ rest) := hsplit
            _ = (a.take A.length ++ a.drop A.length) ++ (t ++ rest) := by
                rw [List.take_append_drop]
            _ = a.take A.length ++ (a.drop A.length ++ (t ++ rest)) := by
                rw [List.append_assoc]
            _ = a.take A.length ++
                ((tgA ++ (w ++ litTypeface)) ++ u2 ++ (t ++ rest)) := by
                rw [hueq]
            _ = a.take A.length ++
                (tgA ++ (w ++ (litTypeface ++ (u2 ++ (t ++ rest))))) := by
                simp
            _ = a.take A.length ++
                (tgA ++ (w ++ (litTypeface ++ (Vs ++ '"' :: Zs)))) := by
                rw [hVZ]
        exact hQ (a.take A.length) w Vs Zs hseq hw hws hVsq
      · exfalso
        have hklen : k < tgB.length + 17 := by
          have hrl : r.length = tgB.length + 17 := by
            rw [hrw]
            simp [wsRepl, litTypeface, arial]
          omega
        have hpre1 : tgA <+: r.drop k ++ scanStr (matchTagWs tgB) rest :=
          ⟨w ++ (litTypeface ++ (V ++ '"' :: B)), hZ⟩
        rw [hrw] at hpre1
        rcases prefix_append_cases _ _ _ hpre1 with hc | hc
        · exact (hfact k hklen).1 (List.isPrefixOf_iff_prefix.mpr hc)
        · exact (hfact k hklen).2 (List.isPrefixOf_iff_prefix.mpr hc)
      · exact hQT C w V B hZ hw hws hV

/-! ## `PArial` is preserved by the whitespace-collapsing replacements -/

theorem scan_tagws_parial_aux (tg tg' : Str) (htg : tg = '<' :: tg')
    (hfact : ∀ k, k < tg.length + 17 → k ≠ tg.length + 1 →
      ¬ (litTypeface.isPrefixOf ((wsRepl tg).drop k) = true) ∧
      ¬ (((wsRepl tg).drop k).isPrefixOf litTypeface = true)) :
    ∀ (n : Nat) (s : Str), s.length ≤ n → PArial s →
      PArial (scanStr (matchTagWs tg) s) := by
  intro n
  induction n with
  | zero =>
    intro s hs hP
    have hs0 : s = [] := List.eq_nil_of_length_eq_zero (by omega)
    subst hs0
    intro A V B hAB hV
    exfalso
    have h0 : scanStr (matchTagWs tg) ([] : Str) = [] := rfl
    rw [h0] at hAB
    have := congrArg List.length hAB
    simp [litTypeface] at this
    omega
  | succ n ih =>
    intro s hs hP
    rcases scan_decomp (matchTagWs tg) (matchTagWs_shrink tg) (matchTagWs_splits tg)
        (matchTagWs_nil tg) s with ⟨hid, _⟩ |
        ⟨a, t, r, rest, hsplit, hmatch, hscan, hbefore⟩
    · rw [hid]
      exact hP
    · obtain ⟨w0, v0, hw0, hws0, hv0q, ht, hr, hs0⟩ :=
        matchTagWs_eq_some tg _ _ _ _ hmatch
      have hrw : r = wsRepl tg := by rw [hr]; simp [wsRepl]
      have hTlen : rest.length ≤ n := by
        have h1 := matchTagWs_shrink tg _ _ _ _ hmatch
        have h2 := congrArg List.length hsplit
        simp at h1 h2
        omega
      have hPrest : PArial rest := by
        have h1 : PArial (t ++ rest) := PArial_drop a _ (hsplit ▸ hP)
        exact PArial_drop t rest h1
      have hPT := ih rest hTlen hPrest
      rw [hscan]
      intro A V B hAB hV
      rcases occ_cases a r (scanStr (matchTagWs tg) rest) A _ hAB with
        ⟨hlt, hune, hZ⟩ | ⟨k, hk, hZ⟩ | ⟨C, hZ⟩
      · rcases le_or_lt litTypeface.length (a.drop A.length).length with
          hbig | hsmall
        · have hlu : litTypeface <+: a.drop A.length :=
            List.prefix_of_prefix_length_le ⟨_, hZ⟩
              (List.prefix_append (a.drop A.length) _) hbig
          obtain ⟨u2, hueq⟩ := hlu
          have hqin : ('"' : Char) ∈ u2 ++ (t ++ rest) := by
            have hqt : ('"' : Char) ∈ t := by rw [ht]; simp
            simp [hqt]
          obtain ⟨Vs, Zs, hVZ, hVsq⟩ := first_quote_split _ hqin
          have hseq : s = a.take A.length ++ (litTypeface ++ (Vs ++ '"' :: Zs)) := by
            calc s = a ++ (t ++ rest) := hsplit
              _ = (a.take A.length ++ a.drop A.length) ++ (t ++ rest) := by
                  rw [List.take_append_drop]
              _ = a.take A.length ++ (a.drop A.length ++ (t ++ rest)) := by
                  rw [List.append_assoc]
              _ = a.take A.length ++ ((litTypeface ++ u2) ++ (t ++ rest)) := by
                  rw [hueq]
              _ = a.take A.length ++ (litTypeface ++ (u2 ++ (t ++ rest))) := by
                  simp
              _ = a.take A.length ++ (litTypeface ++ (Vs ++ '"' :: Zs)) := by
                  rw [hVZ]
          have hVsa : Vs = arial := hP _ Vs Zs hseq hVsq
          have hZc : V ++ '"' :: B =
              u2 ++ (r ++ scanStr (matchTagWs tg) rest) := by
            have h1 : litTypeface ++ (V ++ '"' :: B) =
                litTypeface ++ (u2 ++ (r ++ scanStr (matchTagWs tg) rest)) := by
              rw [hZ, ← hueq]
              simp
            exact List.append_cancel_left h1
          have hs2 : u2 ++ (t ++ rest) = arial ++ '"' :: Zs := by
            rw [hVZ, hVsa]
          rcases le_or_lt u2.length arial.length with hle5 | hgt5
          · exfalso
            obtain ⟨D, hD, hrest⟩ := split_ge u2 (t ++ rest) arial ('"' :: Zs)
              hs2 hle5
            have hthead : t ++ rest = '<' ::
                (tg' ++ w0 ++ litTypeface ++ v0 ++ ['"'] ++ rest) := by
              rw [ht, htg]
              simp
            match D, hD, hrest with
            | [], _, hrest =>
              have h3 : '<' :: (tg' ++ w0 ++ litTypeface ++ v0 ++ ['"'] ++ rest) =
                  '"' :: Zs := by
                rw [← hthead, hrest]
                simp
              exact absurd (cons_eq_head _ _ _ _ h3) (by decide)
            | d :: D2, hD, hrest =>
              have h3 : '<' :: (tg' ++ w0 ++ litTypeface ++ v0 ++ ['"'] ++ rest) =
                  d :: (D2 ++ '"' :: Zs) := by
                rw [← hthead, hrest]
                simp
              have hdm : d ∈ arial := by rw [hD]; simp
              rw [← cons_eq_head _ _ _ _ h3] at hdm
              exact absurd hdm (by decide)
          · have h6 : (arial ++ ['"']).length ≤ u2.length := by
              simp [arial] at hgt5 ⊢
              omega
            have h' : (arial ++ ['"']) ++ Zs = u2 ++ (t ++ rest) := by
              calc (arial ++ ['"']) ++ Zs = arial ++ '"' :: Zs := by simp
                _ = u2 ++ (t ++ rest) := hs2.symm
            obtain ⟨u3, hu3, _⟩ := split_ge _ _ _ _ h' h6
            have hO : V ++ '"' :: B =
                arial ++ '"' :: (u3 ++ (r ++ scanStr (matchTagWs tg) rest)) := by
              rw [hZc, hu3]
              simp
            exact (quote_split_unique V B arial _ hO hV (by decide)).1
        · exfalso
          obtain ⟨l3, hl3, hrT⟩ := split_ge (a.drop A.length)
            (r ++ scanStr (matchTagWs tg) rest) litTypeface (V ++ '"' :: B)
            hZ.symm hsmall.le
          have hrhead : r ++ scanStr (matchTagWs tg) rest = '<' ::
              ((tg' ++ ([' '] ++ (litTypeface ++ (arial ++ ['"'])))) ++
                scanStr (matchTagWs tg) rest) := by
            rw [hrw, wsRepl, htg]
            simp
          match l3, hl3, hrT with
          | [], hl3, _ =>
            rw [List.append_nil] at hl3
            rw [← hl3] at hsmall
            exact absurd hsmall (lt_irrefl _)
          | d :: l4, hl3, hrT =>
            have h3 : '<' :: ((tg' ++ ([' '] ++ (litTypeface ++ (arial ++ ['"'])))) ++
                  scanStr (matchTagWs tg) rest) =
                d :: (l4 ++ (V ++ '"' :: B)) := by
              rw [← hrhead, hrT]
              simp
            have hdm : d ∈ litTypeface := by rw [hl3]; simp
            rw [← cons_eq_head _ _ _ _ h3] at hdm
            exact absurd hdm (by decide)
      · have hklen : k < tg.length + 17 := by
          have hrl : r.length = tg.length + 17 := by
            rw [hrw]
            simp [wsRepl, litTypeface, arial]
          omega
        by_cases hk0 : k = tg.length + 1
        · subst hk0
          have hdropg : (wsRepl tg).drop (tg.length + 1) =
              litTypeface ++ (arial ++ ['"']) := by
            have h1 : wsRepl tg =
                (tg ++ [' ']) ++ (litTypeface ++ (arial ++ ['"'])) := by
              simp [wsRepl]
            rw [h1, show tg.length + 1 = (tg ++ [' ']).length from by simp,
              List.drop_left]
          rw [hrw, hdropg] at hZ
          have hZ' : litTypeface ++ (V ++ '"' :: B) =
              litTypeface ++ (arial ++ '"' :: scanStr (matchTagWs tg) rest) := by
            rw [hZ]
            simp
          have hc := List.append_cancel_left hZ'
          exact (quote_split_unique V B arial _ hc hV (by decide)).1
        · exfalso
          have hpre1 : litTypeface <+:
              r.drop k ++ scanStr (matchTagWs tg) rest := ⟨V ++ '"' :: B, hZ⟩
          rw [hrw] at hpre1
          rcases prefix_append_cases _ _ _ hpre1 with hc | hc
          · exact (hfact k hklen hk0).1 (List.isPrefixOf_iff_prefix.mpr hc)
          · exact (hfact k hklen hk0).2 (List.isPrefixOf_iff_prefix.mpr hc)
      · exact hPT C V B hZ hV

/-! ## Identity of each replacement on normalized inputs, per-tag instances -/

theorem scan_tagws_id (tg s : Str) (hP : PArial s) (hQ : QTag tg s) :
    scanStr (matchTagWs tg) s = s := by
  apply scan_eq_self (matchTagWs tg) (matchTagWs_shrink tg)
    (matchTagWs_splits tg) (fun x => PArial x ∧ QTag tg x)
  · intro x y hxy
    exact ⟨PArial_drop x y hxy.1, QTag_drop tg x y hxy.2⟩
  · intro s' t r rest hx hm
    obtain ⟨w, v, hw, hws, hvq, ht, hr, hs⟩ := matchTagWs_eq_some tg s' t r rest hm
    have hwsp : w = [' '] := hx.2 [] w v rest (by rw [hs]; simp) hw hws hvq
    have hva : v = arial := hx.1 (tg ++ w) v rest (by rw [hs]; simp) hvq
    rw [ht, hr, hwsp, hva]
  · exact ⟨hP, hQ⟩

theorem scan_tagattr_id (tg s : Str) (hP : PArial s) :
    scanStr (matchTagAttr tg) s = s := by
  apply scan_eq_self (matchTagAttr tg) (matchTagAttr_shrink tg)
    (matchTagAttr_splits tg) PArial
  · intro x y hxy
    exact PArial_drop x y hxy
  · intro s' t r rest hx hm
    obtain ⟨g1, v, g2, hvq, ht, hr, hs⟩ := matchTagAttr_eq_some tg s' t r rest hm
    have hva : v = arial := hx (tg ++ g1) v (g2 ++ '>' :: rest)
      (by rw [hs]; simp) hvq
    rw [ht, hr, hva]
  · exact hP

theorem parial_tagws_latin (s : Str) (h : PArial s) :
    PArial (scanStr (matchTagWs tagLatin) s) :=
  scan_tagws_parial_aux tagLatin (("a:latin").toList) (by decide) (by decide)
    s.length s (le_refl _) h

theorem parial_tagws_ea (s : Str) (h : PArial s) :
    PArial (scanStr (matchTagWs tagEa) s) :=
  scan_tagws_parial_aux tagEa (("a:ea").toList) (by decide) (by decide)
    s.length s (le_refl _) h

theorem parial_tagws_cs (s : Str) (h : PArial s) :
    PArial (scanStr (matchTagWs tagCs) s) :=
  scan_tagws_parial_aux tagCs (("a:cs").toList) (by decide) (by decide)
    s.length s (le_refl _) h

theorem qtag_latin_scan (s : Str) :
    QTag tagLatin (scanStr (matchTagWs tagLatin) s) :=
  scan_tagws_qtag_aux tagLatin (("a:latin").toList) (by decide) (by decide)
    (by decide) s.length s (le_refl _)

theorem qtag_ea_scan (s : Str) :
    QTag tagEa (scanStr (matchTagWs tagEa) s) :=
  scan_tagws_qtag_aux tagEa (("a:ea").toList) (by decide) (by decide)
    (by decide) s.length s (le_refl _)

theorem qtag_cs_scan (s : Str) :
    QTag tagCs (scanStr (matchTagWs tagCs) s) :=
  scan_tagws_qtag_aux tagCs (("a:cs").toList) (by decide) (by decide)
    (by decide) s.length s (le_refl _)

theorem qtag_latin_keep_ea (s : Str) (h : QTag tagLatin s) :
    QTag tagLatin (scanStr (matchTagWs tagEa) s) :=
  scan_tagws_qtag_other_aux tagLatin (("a:latin").toList) tagEa
    (("a:ea").toList) (by decide) (by decide) (by decide) (by decide)
    s.length s (le_refl _) h

theorem qtag_latin_keep_cs (s : Str) (h : QTag tagLatin s) :
    QTag tagLatin (scanStr (matchTagWs tagCs) s) :=
  scan_tagws_qtag_other_aux tagLatin (("a:latin").toList) tagCs
    (("a:cs").toList) (by decide) (by decide) (by decide) (by decide)
    s.length s (le_refl _) h

theorem qtag_ea_keep_cs (s : Str) (h : QTag tagEa s) :
    QTag tagEa (scanStr (matchTagWs tagCs) s) :=
  scan_tagws_qtag_other_aux tagEa (("a:ea").toList) tagCs
    (("a:cs").toList) (by decide) (by decide) (by decide) (by decide)
    s.length s (le_refl _) h

/-! ## Idempotence of the seven-stage pipeline -/

theorem fontsPipeline_idem (s : Str) :
    fontsPipeline (fontsPipeline s) = fontsPipeline s := by
  have hP1 : PArial (scanStr matchTypeface s) := PArial_scan_typeface s
  have hP2 : PArial (scanStr (matchTagWs tagLatin) (scanStr matchTypeface s)) :=
    parial_tagws_latin _ hP1
  have hP3 : PArial (scanStr (matchTagWs tagEa)
      (scanStr (matchTagWs tagLatin) (scanStr matchTypeface s))) :=
    parial_tagws_ea _ hP2
  have hP4 : PArial (scanStr (matchTagWs tagCs) (scanStr (matchTagWs tagEa)
      (scanStr (matchTagWs tagLatin) (scanStr matchTypeface s)))) :=
    parial_tagws_cs _ hP3
  have hQL2 : QTag tagLatin
      (scanStr (matchTagWs tagLatin) (scanStr matchTypeface s)) :=
    qtag_latin_scan _
  have hQL3 : QTag tagLatin (scanStr (matchTagWs tagEa)
      (scanStr (matchTagWs tagLatin) (scanStr matchTypeface s))) :=
    qtag_latin_keep_ea _ hQL2
  have hQL4 : QTag tagLatin (scanStr (matchTagWs tagCs)
      (scanStr (matchTagWs tagEa)
        (scanStr (matchTagWs tagLatin) (scanStr matchTypeface s)))) :=
    qtag_latin_keep_cs _ hQL3
  have hQE3 : QTag tagEa (scanStr (matchTagWs tagEa)
      (scanStr (matchTagWs tagLatin) (scanStr matchTypeface s))) :=
    qtag_ea_scan _
  have hQE4 : QTag tagEa (scanStr (matchTagWs tagCs) (scanStr (matchTagWs tagEa)
      (scanStr (matchTagWs tagLatin) (scanStr matchTypeface s)))) :=
    qtag_ea_keep_cs _ hQE3
  have hQC4 : QTag tagCs (scanStr (matchTagWs tagCs) (scanStr (matchTagWs tagEa)
      (scanStr (matchTagWs tagLatin) (scanStr matchTypeface s)))) :=
    qtag_cs_scan _
  have hfirst : fontsPipeline s =
      scanStr (matchTagWs tagCs) (scanStr (matchTagWs tagEa)
        (scanStr (matchTagWs tagLatin) (scanStr matchTypeface s))) := by
    simp only [fontsPipeline]
    rw [scan_tagattr_id tagLatin _ hP4, scan_tagattr_id tagEa _ hP4,
      scan_tagattr_id tagCs _ hP4]
  rw [hfirst]
  simp only [fontsPipeline]
  rw [scan_typeface_id _ hP4, scan_tagws_id tagLatin _ hP4 hQL4,
    scan_tagws_id tagEa _ hP4 hQE4, scan_tagws_id tagCs _ hP4 hQC4,
    scan_tagattr_id tagLatin _ hP4, scan_tagattr_id tagEa _ hP4,
    scan_tagattr_id tagCs _ hP4]

/-- C7: the typography rewrite is idempotent — applying the
`changeFontsToArial` font normalization twice to a container yields
byte-for-byte the same part contents as applying it once. -/
theorem changeFontsToArial_idem (z : Zip) :
    changeFontsToArial (changeFontsToArial z) = changeFontsToArial z := by
  simp only [changeFontsToArial, List.map_map]
  apply List.map_congr_left
  intro e _
  by_cases h : isFontTargetName e.entryName = true
  · simp [Function.comp, h, fontsPipeline_idem]
  · simp only [Function.comp, h]
    simp [h]

end DocUnd

